import Mathlib

/-!
Verification development for the MT5 market-data collector
(`database.py`, `data_fetcher.py`, `mt5_connector.py`).

Times are modelled as integers (UTC seconds); floating-point OHLC prices are
carried as opaque integer payloads (the code never computes with them, it only
stores and returns them); the MySQL `candles` table is modelled as a list of
rows in insertion order with the unique key `(symbol, timeframe, timestamp)`
created by `Database._initialize_schema`; `INSERT IGNORE` appends a row only
when no row with the same key exists.  The legacy foreign-key schema branch of
`Database.insert_candles` (`_uses_fk_candles_schema`) is modelled too, with its
`symbols` and `timeframes` side tables and its per-batch id caches.
-/

namespace MT5

/-- One OHLCV bar as built by `DataFetcher._convert_rates_to_candles`. -/
structure Candle where
  symbol : String
  timeframe : String
  timeframeMinutes : Int
  timestamp : Int
  opn : Int
  high : Int
  low : Int
  close : Int
  volume : Int
deriving DecidableEq, Repr

/-- A stored row of the `candles` table (columns written by both insert paths). -/
structure Row where
  symbol : String
  timeframe : String
  timestamp : Int
  opn : Int
  high : Int
  low : Int
  close : Int
  volume : Int
deriving DecidableEq, Repr

/-- The relational state touched by `Database`: the `candles` table plus the
legacy `symbols` / `timeframes` side tables and the schema-detection flag. -/
structure Store where
  rows : List Row
  symbols : List String
  timeframes : List (String × Int)
  usesFk : Bool
deriving DecidableEq, Repr

/-- Uniqueness key of a stored row: `(symbol, timeframe, timestamp)`
(the `candles_symbol_timeframe_timestamp_idx` unique index). -/
def rowKey (r : Row) : String × String × Int := (r.symbol, r.timeframe, r.timestamp)

/-- Key of an incoming candle. -/
def candleKey (c : Candle) : String × String × Int := (c.symbol, c.timeframe, c.timestamp)

/-- Whether a row with the given key exists. -/
def hasKey (rows : List Row) (k : String × String × Int) : Bool :=
  rows.any (fun r => rowKey r == k)

/-- First stored row with the given key (what a keyed lookup would return). -/
def findKey (rows : List Row) (k : String × String × Int) : Option Row :=
  rows.find? (fun r => rowKey r == k)

/-- Row written for a candle. -/
def toRow (c : Candle) : Row :=
  ⟨c.symbol, c.timeframe, c.timestamp, c.opn, c.high, c.low, c.close, c.volume⟩

/-- `Database._ensure_symbol_id`: `INSERT IGNORE INTO symbols` — append the
symbol if absent. -/
def ensureSymbol (tbl : List String) (s : String) : List String :=
  if s ∈ tbl then tbl else tbl ++ [s]

/-- `Database._ensure_timeframe_id`: upsert `(timeframe, minutes)` with
`ON DUPLICATE KEY UPDATE minutes`. -/
def ensureTimeframe (tbl : List (String × Int)) (tf : String) (m : Int) :
    List (String × Int) :=
  if tbl.any (fun p => p.1 == tf) then
    tbl.map (fun p => if p.1 == tf then (tf, m) else p)
  else tbl ++ [(tf, m)]

/-- Result of `Database.insert_candles`: the returned inserted count, the
resulting store, and the number of SQL statements executed. -/
structure InsertOutcome where
  inserted : Nat
  store : Store
  ops : Nat
deriving DecidableEq, Repr

/-- The `if symbol not in symbol_id_cache` step of `Database.insert_candles`:
ensure the symbol row exists and cache it for the rest of the batch. -/
def symStep (st : Store) (sc : List String) (ops : Nat) (c : Candle) :
    Store × List String × Nat :=
  if c.symbol ∈ sc then (st, sc, ops)
  else ({ st with symbols := ensureSymbol st.symbols c.symbol },
        sc ++ [c.symbol], ops + 2)

/-- The FK-schema preamble of one iteration of `Database.insert_candles`:
ensure the symbol id, then the timeframe id (raising
`"Missing timeframe_minutes ..."` when the candle has no positive minutes),
updating both per-batch caches.  On the plain schema it does nothing. -/
def fkPrep (st : Store) (sc tc : List String) (ops : Nat) (c : Candle) :
    Except String (Store × List String × List String × Nat) :=
  if st.usesFk then
    if c.timeframe ∈ tc then
      .ok ((symStep st sc ops c).1, (symStep st sc ops c).2.1, tc,
           (symStep st sc ops c).2.2)
    else if c.timeframeMinutes ≤ 0 then
      .error ("Missing timeframe_minutes for " ++ c.timeframe)
    else
      .ok ({ (symStep st sc ops c).1 with
              timeframes := ensureTimeframe (symStep st sc ops c).1.timeframes
                c.timeframe c.timeframeMinutes },
           (symStep st sc ops c).2.1, tc ++ [c.timeframe],
           (symStep st sc ops c).2.2 + 2)
  else .ok (st, sc, tc, ops)

/-- The per-candle loop of `Database.insert_candles`, carrying the per-batch
`symbol_id_cache` / `timeframe_id_cache` (modelled as the list of cached keys),
the running inserted count and the executed-statement count.  `INSERT IGNORE`
appends the row only when the `(symbol, timeframe, timestamp)` key is absent and
its rowcount (1 inserted / 0 ignored) feeds the count.  The only failure the
relational model can exhibit is the code's own
`raise Exception("Missing timeframe_minutes ...")` on the FK path. -/
def insertLoop : Store → List String → List String → Nat → Nat → List Candle →
    Except String InsertOutcome
  | st, _, _, count, ops, [] => .ok ⟨count, st, ops⟩
  | st, symCache, tfCache, count, ops, c :: rest =>
    match fkPrep st symCache tfCache ops c with
    | .error e => .error e
    | .ok (st', sc', tc', ops') =>
      if hasKey st'.rows (candleKey c) then
        insertLoop st' sc' tc' count (ops' + 1) rest
      else
        insertLoop { st' with rows := st'.rows ++ [toRow c] } sc' tc'
          (count + 1) (ops' + 1) rest

/-- `Database.insert_candles`: early return `0` on an empty batch (before any
cursor is opened), otherwise run the per-candle loop with empty caches. -/
def insert_candles (st : Store) (cs : List Candle) : Except String InsertOutcome :=
  if cs = [] then .ok ⟨0, st, 0⟩
  else insertLoop st [] [] 0 0 cs

/-- All entries of the `timeframes` table at key `tf` carry minutes `m`, and at
least one such entry exists — the state after an upsert on `tf`. -/
def tfSettled (tbl : List (String × Int)) (tf : String) (m : Int) : Prop :=
  (tbl.any (fun p => p.1 == tf)) = true ∧ ∀ p ∈ tbl, p.1 = tf → p.2 = m

/-- A one-candle batch over the plain schema, used as concrete input for
witnesses. -/
def wCandle : Candle := ⟨"US30", "H1", 60, 1704067200, 10, 20, 5, 15, 100⟩

/-- The empty plain-schema store. -/
def wStoreEmpty : Store := ⟨[], [], [], false⟩

/-- The store holding exactly the row of `wCandle`. -/
def wStoreOne : Store := ⟨[toRow wCandle], [], [], false⟩

/-! ## Gap detection and resume point (`database.py`, `data_fetcher.py`) -/

/-- Seconds in `timedelta(days=1)`. -/
def oneDay : Int := 86400

lemma oneDay_pos : 0 < oneDay := by unfold oneDay; norm_num

/-- `Database.get_last_candle_timestamp`: `SELECT MAX(timestamp) ... WHERE
symbol = %s AND timeframe = %s`, `None` when the series has no row.  ISO
timestamp strings of a fixed format compare like the underlying instants, so
the string `MAX` is the numeric maximum here. -/
def get_last_candle_timestamp (st : Store) (symbol timeframe : String) :
    Option Int :=
  ((st.rows.filter (fun r => r.symbol == symbol && r.timeframe == timeframe)).map
    (fun r => r.timestamp)).max?

/-- Insert into an ascending list, keeping order (used to model `ORDER BY`). -/
def insertAsc (x : Int) : List Int → List Int
  | [] => [x]
  | y :: ys => if x ≤ y then x :: y :: ys else y :: insertAsc x ys

/-- Ascending sort, modelling the SQL `ORDER BY timestamp` of a query. -/
def sortAsc (l : List Int) : List Int := l.foldr insertAsc []

/-- The ascending stored timestamps of a series inside `[startT, endT)` — the
`SELECT timestamp ... WHERE symbol = %s AND timeframe = %s AND timestamp >= %s
AND timestamp < %s ORDER BY timestamp` query of `Database.detect_gaps`. -/
def windowTimestamps (st : Store) (symbol timeframe : String)
    (startT endT : Int) : List Int :=
  sortAsc ((st.rows.filter (fun r =>
    r.symbol == symbol && r.timeframe == timeframe &&
    decide (startT ≤ r.timestamp) && decide (r.timestamp < endT))).map
      (fun r => r.timestamp))

/-- `expected_interval_seconds = expected_interval_minutes * 60 * 1.5` of
`Database.detect_gaps` (exact: `m * 60` is even, so the 1.5 factor is the
integer `m * 60 * 3 / 2`). -/
def expected_interval_seconds (m : Int) : Int := m * 60 * 3 / 2

/-- The `prev_timestamp` fold of `Database.detect_gaps`: report every adjacent
pair whose delta exceeds the tolerance. -/
def gapsLoop (threshold : Int) : Option Int → List Int → List (Int × Int)
  | _, [] => []
  | none, t :: ts => gapsLoop threshold (some t) ts
  | some p, t :: ts =>
    if threshold < t - p then (p, t) :: gapsLoop threshold (some t) ts
    else gapsLoop threshold (some t) ts

/-- `Database.detect_gaps`: fewer than 2 stored timestamps in the window yield
no gaps, otherwise run the consecutive-delta scan. -/
def detect_gaps (st : Store) (symbol timeframe : String) (startT endT : Int)
    (expectedIntervalMinutes : Int) : List (Int × Int) :=
  let ts := windowTimestamps st symbol timeframe startT endT
  if ts.length < 2 then []
  else gapsLoop (expected_interval_seconds expectedIntervalMinutes) none ts

/-- The resume-point computation of `DataFetcher.sync_historical_data`:
`last_timestamp - timedelta(days=1)` when the series has stored data, else
`now - timedelta(days=days_back)`. -/
def sync_start_date (st : Store) (symbol timeframe : String)
    (now daysBack : Int) : Int :=
  match get_last_candle_timestamp st symbol timeframe with
  | some last => last - oneDay
  | none => now - daysBack * oneDay

/-- A row of the gap-detection witness series (series `("S", "M5")`). -/
def gRow (t : Int) : Row := ⟨"S", "M5", t, 0, 0, 0, 0, 0⟩

/-- A two-bar plain-schema store for the gap boundary checks. -/
def twoBarStore (t₁ t₂ : Int) : Store := ⟨[gRow t₁, gRow t₂], [], [], false⟩

/-! ## The chunked fetch loop (`data_fetcher.py`) -/

/-- A raw rate record of `mt5.copy_rates_range` (`time` plus OHLCV payloads;
the float payloads are opaque here). -/
structure Rate where
  time : Int
  opn : Int
  high : Int
  low : Int
  close : Int
  tickVolume : Int
deriving DecidableEq, Repr

/-- What one `mt5.copy_rates_range(symbol, tf, s, e)` call observes: the
optional rate array and whether `mt5.last_error()` then reads as an
`"Invalid params"` error. -/
structure FetchAnswer where
  rates : Option (List Rate)
  invalidParams : Bool

/-- The remote terminal, as a function of the requested sub-range. -/
def SourceOracle : Type := Int → Int → FetchAnswer

/-- `DataFetcher.TIMEFRAME_MINUTES.get` (`TIMEFRAME_MAP` has the same keys). -/
def timeframeMinutesOf (tf : String) : Option Int :=
  if tf = "M1" then some 1
  else if tf = "M5" then some 5
  else if tf = "M15" then some 15
  else if tf = "M30" then some 30
  else if tf = "H1" then some 60
  else if tf = "H4" then some 240
  else if tf = "D1" then some 1440
  else none

/-- `self._get_timeframe_minutes(timeframe) or 1` (chunk sizing). -/
def tfMinutesOr1 (tf : String) : Int := (timeframeMinutesOf tf).getD 1

/-- `self._get_timeframe_minutes(timeframe) or 0` (candle conversion). -/
def tfMinutesOr0 (tf : String) : Int := (timeframeMinutesOf tf).getD 0

/-- `datetime.fromtimestamp(t, tz=pytz.UTC)`: raises `OverflowError`/`OSError`
for timestamps outside the supported `datetime` range (years 1..9999). -/
def fromtimestampUTC (t : Int) : Except String Int :=
  if t < -62135596800 ∨ 253402300799 < t then .error "timestamp out of range"
  else .ok t

/-- Conversion of one raw rate into a candle dict
(`DataFetcher._convert_rates_to_candles` loop body). -/
def convertRate (symbol timeframe : String) (tfMinutes : Int) (r : Rate) :
    Except String Candle :=
  match fromtimestampUTC r.time with
  | .error e => .error e
  | .ok ts =>
    .ok ⟨symbol, timeframe, tfMinutes, ts, r.opn, r.high, r.low, r.close,
         r.tickVolume⟩

/-- `DataFetcher._convert_rates_to_candles`: convert records in order; an
exception raised for one record propagates, discarding the whole batch. -/
def convert_rates_to_candles (symbol timeframe : String) (tfMinutes : Int) :
    List Rate → Except String (List Candle)
  | [] => .ok []
  | r :: rs =>
    match convertRate symbol timeframe tfMinutes r with
    | .error e => .error e
    | .ok c =>
      match convert_rates_to_candles symbol timeframe tfMinutes rs with
      | .error e => .error e
      | .ok cs => .ok (c :: cs)

/-- One observable step of the fetch walk: a sub-range fetched and converted,
or a sub-range skipped with a logged warning. -/
inductive FetchEvent
  | fetched (s e : Int) (count : Nat)
  | skipped (s e : Int)
deriving DecidableEq, Repr

/-- The `while chunk_start < end_utc` loop of
`DataFetcher.fetch_historical_data`: fetch `[cursor, min(endT, cursor+delta))`;
on missing/empty rates with an `"Invalid params"` error and a span above one
day, halve the span (floor one day) and retry the same cursor; on any other
failed call log a warning and skip to the next sub-range; otherwise convert
and accumulate.  A conversion exception aborts the loop (the surrounding
`try` of the source). -/
def fetchLoop (o : SourceOracle) (symbol timeframe : String) (convM : Int)
    (endT : Int) (cursor delta : Int) (hδ : 0 < delta) :
    Except String (List Candle × List FetchEvent) :=
  if hlt : cursor < endT then
    let ce := min endT (cursor + delta)
    let a := o cursor ce
    let rs? : Option (List Rate) :=
      match a.rates with
      | none => none
      | some rs => if rs = [] then none else some rs
    match rs? with
    | some rs =>
      match convert_rates_to_candles symbol timeframe convM rs with
      | .error e => .error e
      | .ok cs =>
        match fetchLoop o symbol timeframe convM endT ce delta hδ with
        | .error e => .error e
        | .ok (cs', evs) => .ok (cs ++ cs', .fetched cursor ce rs.length :: evs)
    | none =>
      if a.invalidParams && decide (oneDay < delta) then
        fetchLoop o symbol timeframe convM endT cursor (max oneDay (delta / 2))
          (lt_of_lt_of_le oneDay_pos (le_max_left oneDay (delta / 2)))
      else
        match fetchLoop o symbol timeframe convM endT ce delta hδ with
        | .error e => .error e
        | .ok (cs', evs) => .ok (cs', .skipped cursor ce :: evs)
  else .ok ([], [])
termination_by ((endT - cursor).toNat, delta.toNat)
decreasing_by
  all_goals
  first
  | · refine Prod.Lex.right _ ?_
      have hd : oneDay < delta := by
        rcases Bool.and_eq_true_iff.mp (by assumption) with ⟨_, h2⟩
        exact of_decide_eq_true h2
      have h2 : max oneDay (delta / 2) < delta := by
        have h3 : delta / 2 < delta := by omega
        omega
      omega
  | · refine Prod.Lex.left _ _ ?_
      have hce : cursor < min endT (cursor + delta) :=
        lt_min hlt (by omega)
      have h1 : (0:Int) ≤ endT - min endT (cursor + delta) := by
        have := min_le_left endT (cursor + delta); omega
      omega

/-- `max_bars_per_call = 50000`. -/
def maxBarsPerCall : Int := 50000

/-- The initial chunk span in seconds:
`timedelta(minutes=tf_minutes * max_bars_per_call)`. -/
def initialChunkDelta (tf : String) : Int := tfMinutesOr1 tf * maxBarsPerCall * 60

lemma tfMinutesOr1_pos (tf : String) : 0 < tfMinutesOr1 tf := by
  unfold tfMinutesOr1 timeframeMinutesOf
  split_ifs <;> norm_num

lemma initialChunkDelta_pos (tf : String) : 0 < initialChunkDelta tf := by
  have := tfMinutesOr1_pos tf
  unfold initialChunkDelta maxBarsPerCall
  positivity

/-- `DataFetcher.fetch_historical_data`, with the connection and symbol
guards as boolean preconditions (`ensure_connection`, `resolve_symbol`,
`get_symbol_info` — each failure returns `[]`), the timeframe-map guard, the
chunked fetch walk, and the surrounding `try/except` which turns any raised
exception into an empty result. -/
def fetch_historical_data (connOk symbolOk : Bool) (o : SourceOracle)
    (symbol timeframe : String) (startT endT : Int) : List Candle :=
  if !connOk then []
  else if !symbolOk then []
  else if (timeframeMinutesOf timeframe).isNone then []
  else
    match fetchLoop o symbol timeframe (tfMinutesOr0 timeframe) endT startT
        (initialChunkDelta timeframe) (initialChunkDelta_pos timeframe) with
    | .ok (cs, _) => cs
    | .error _ => []

/-- The pure chunk walk of the fetch loop when no call fails: emit
`[cursor, min(endT, cursor+span))` and advance the cursor to each chunk's end
until it reaches `endT`. -/
def chunkList (endT span : Int) (hspan : 0 < span) (cursor : Int) :
    List (Int × Int) :=
  if h : cursor < endT then
    (cursor, min endT (cursor + span)) ::
      chunkList endT span hspan (min endT (cursor + span))
  else []
termination_by (endT - cursor).toNat
decreasing_by
  have hce : cursor < min endT (cursor + span) := lt_min h (by omega)
  have h1 : (0:Int) ≤ endT - min endT (cursor + span) := by
    have := min_le_left endT (cursor + span); omega
  omega

/-- An always-failing terminal (no rates, no invalid-params error), used as a
concrete oracle in witnesses. -/
def wOracle : SourceOracle := fun _ _ => ⟨none, false⟩

/-- A terminal that rejects every call with an `"Invalid params"` error. -/
def invOracle : SourceOracle := fun _ _ => ⟨none, true⟩

/-- A rate whose timestamp `datetime.fromtimestamp` cannot represent. -/
def badRate : Rate := ⟨999999999999999, 0, 0, 0, 0, 0⟩

/-- Two ordinary convertible rates. -/
def gRate1 : Rate := ⟨500, 1, 2, 3, 4, 5⟩

def gRate2 : Rate := ⟨600, 1, 2, 3, 4, 5⟩

/-- A terminal whose only answered chunk (the one starting at 0) returns a
batch with one inconvertible record between two good ones. -/
def c7Oracle : SourceOracle := fun s _ =>
  if s = 0 then ⟨some [gRate1, badRate, gRate2], false⟩ else ⟨none, false⟩

/-- A store of series `("S", "M5")` with bars at 0, 1000 and 2000 seconds —
two gaps for the M5 tolerance of 450 seconds. -/
def cStore : Store := ⟨[gRow 0, gRow 1000, gRow 2000], [], [], false⟩

/-- A terminal that answers the first gap's sub-range `(0, 1000)` with one
rate and fails every other call. -/
def cOrcl : SourceOracle := fun s e =>
  if s = 0 ∧ e = 1000 then ⟨some [⟨500, 1, 1, 1, 1, 1⟩], false⟩
  else ⟨none, false⟩

/-! ## Sync and gap repair (`data_fetcher.py`) -/

/-- `DataFetcher.sync_historical_data`: compute the resume point, fetch
`[resume, now)` and, when anything was fetched, insert it.  Returns the fetch
start actually used, the fetched candles, and the insert outcome. -/
def sync_historical_data (connOk symbolOk : Bool) (o : SourceOracle)
    (st : Store) (symbol timeframe : String) (now daysBack : Int) :
    Int × List Candle × Except String (Store × Nat) :=
  let startD := sync_start_date st symbol timeframe now daysBack
  let cs := fetch_historical_data connOk symbolOk o symbol timeframe startD now
  (startD, cs,
    if cs = [] then .ok (st, 0)
    else (insert_candles st cs).map fun r => (r.store, r.inserted))

/-- `Database.insert_candles` under an unreliable driver: any `cur.execute`
can raise `MySQLError` when the server or connection fails during the batch,
and the method wraps that into `Exception("Failed to insert candles: ...")`.
`dbOk = false` models such a driver failure during this batch (the empty-batch
early return happens before any statement, hence before any failure). -/
def insert_candles_conn (dbOk : Bool) (st : Store) (cs : List Candle) :
    Except String InsertOutcome :=
  if cs = [] then .ok ⟨0, st, 0⟩
  else if !dbOk then .error "Failed to insert candles: MySQLError"
  else insertLoop st [] [] 0 0 cs

/-- The `for gap_start, gap_end in gaps` loop of
`DataFetcher.detect_and_fill_gaps`: fetch exactly the gap's sub-range and
insert when anything came back.  There is no `try/except` around the body, so
an exception raised by `insert_candles` propagates and aborts the remaining
gaps.  `conn i` is the driver health while the i-th gap is processed; the
returned list records the gaps whose sub-range was fetched. -/
def fillGaps (connOk symbolOk : Bool) (o : SourceOracle) (conn : Nat → Bool)
    (symbol timeframe : String) :
    Store → Nat → List (Int × Int) → Except String (Store × List (Int × Int))
  | st, _, [] => .ok (st, [])
  | st, i, (gs, ge) :: rest =>
    let cs := fetch_historical_data connOk symbolOk o symbol timeframe gs ge
    if cs = [] then
      match fillGaps connOk symbolOk o conn symbol timeframe st (i + 1) rest with
      | .error e => .error e
      | .ok (st', done) => .ok (st', (gs, ge) :: done)
    else
      match insert_candles_conn (conn i) st cs with
      | .error e => .error e
      | .ok r =>
        match fillGaps connOk symbolOk o conn symbol timeframe r.store (i + 1)
            rest with
        | .error e => .error e
        | .ok (st', done) => .ok (st', (gs, ge) :: done)

/-- `DataFetcher.detect_and_fill_gaps`: no-op when the series has no data;
otherwise detect gaps over `[high-water-mark - 30 days, now)` and repair each
one. -/
def detect_and_fill_gaps (connOk symbolOk : Bool) (o : SourceOracle)
    (conn : Nat → Bool) (st : Store) (symbol timeframe : String)
    (timeframeMinutes : Int) (now : Int) :
    Except String (Store × List (Int × Int)) :=
  match get_last_candle_timestamp st symbol timeframe with
  | none => .ok (st, [])
  | some last =>
    let gaps := detect_gaps st symbol timeframe (last - 30 * oneDay) now
      timeframeMinutes
    fillGaps connOk symbolOk o conn symbol timeframe st 0 gaps

/-! ## Connection supervision (`mt5_connector.py`) -/

/-- An observable action of `MT5Connector.reconnect`: one numbered `connect()`
attempt, or one `time.sleep(reconnect_delay)`. -/
inductive ConnEvent
  | attempt (i : Nat)
  | sleep (seconds : Nat)
deriving DecidableEq, Repr

/-- The `for attempt in range(1, max_reconnect_attempts + 1)` loop of
`MT5Connector.reconnect`: try `connect()`; return on success; sleep the fixed
delay only when another attempt follows. -/
def reconnectFrom (ok : Nat → Bool) (maxA delay : Nat) (i : Nat) :
    Bool × List ConnEvent :=
  if maxA < i then (false, [])
  else if ok i then (true, [.attempt i])
  else if i < maxA then
    let r := reconnectFrom ok maxA delay (i + 1)
    (r.1, .attempt i :: .sleep delay :: r.2)
  else (false, [.attempt i])
termination_by maxA + 1 - i
decreasing_by omega

/-- `MT5Connector.reconnect` (after its initial `disconnect()`): walk the
attempts starting at 1; return `False` when all are exhausted. -/
def reconnect (ok : Nat → Bool) (maxA delay : Nat) : Bool × List ConnEvent :=
  reconnectFrom ok maxA delay 1

/-- `MT5Connector.is_connected`: the cached flag, then the
`mt5.account_info()` liveness probe. -/
def is_connected (connected accountOk : Bool) : Bool := connected && accountOk

/-- `MT5Connector.ensure_connection`: return immediately when the liveness
probe succeeds, else reconnect. -/
def ensure_connection (connected accountOk : Bool) (ok : Nat → Bool)
    (maxA delay : Nat) : Bool × List ConnEvent :=
  if is_connected connected accountOk then (true, [])
  else reconnect ok maxA delay

/-- Number of `connect()` attempts in a trace. -/
def countAttempts (evs : List ConnEvent) : Nat :=
  evs.countP fun e => match e with | .attempt _ => true | _ => false

/-- Number of sleeps in a trace. -/
def countSleeps (evs : List ConnEvent) : Nat :=
  evs.countP fun e => match e with | .sleep _ => true | _ => false

/-! ## Symbol resolution (`mt5_connector.py`) -/

/-- The provider directory: `mt5.symbols_get()` names and whether
`mt5.symbol_info(s)` returns an object. -/
structure Provider where
  symbolNames : List String
  hasInfo : String → Bool

/-- A provider query made during resolution. -/
inductive MT5Call
  | symbolInfoQuery (s : String)
  | symbolsGetQuery
deriving DecidableEq, Repr

/-- `MT5Connector._norm_symbol`: keep alphanumerics, lowercased. -/
def norm_symbol (s : String) : String :=
  ⟨(s.data.filter Char.isAlphanum).map Char.toLower⟩

/-- The static `alias_map` of `MT5Connector.resolve_symbol`. -/
def aliasFor (requestedNorm : String) : List String :=
  if requestedNorm = "us30" then
    ["us30", "dj30", "dow", "wallstreet", "ws30", "us30cash", "us30m", "us30z"]
  else if requestedNorm = "ustech" then
    ["ustech", "nas100", "nas", "nasdaq", "ustec", "us100", "tech100", "nq100"]
  else []

/-- Python `needle in hay` on strings. -/
def containsSub (hay needle : String) : Bool :=
  hay.data.tails.any fun t => needle.data.isPrefixOf t

/-- The direct contains/startswith score tier of `resolve_symbol`. -/
def baseScore (rn nn : String) : Nat :=
  if rn ≠ "" ∧ rn = nn then 100
  else if rn ≠ "" ∧ nn.startsWith rn then 90
  else if rn ≠ "" ∧ containsSub nn rn then 80
  else 0

/-- One alias-boost step (`score = max(score, ...)`). -/
def aliasBoost (nn : String) (score : Nat) (al : String) : Nat :=
  let a := norm_symbol al
  if a = "" then score
  else if nn = a then max score 98
  else if nn.startsWith a then max score 88
  else if containsSub nn a then max score 78
  else score

/-- The full score of one candidate name. -/
def scoreOf (rn nn : String) : Nat :=
  (aliasFor rn).foldl (aliasBoost nn) (baseScore rn nn)

/-- Maximum of two sort keys `(score * 1000 - len(name), name)` — what
`candidates.sort(reverse=True)` followed by `candidates[0]` selects. -/
def betterCand (p q : Int × String) : Int × String :=
  if q.1 < p.1 then p
  else if p.1 < q.1 then q
  else if q.2 < p.2 then p
  else q

/-- `candidates[0]` after the reverse sort: the maximum candidate. -/
def pickBest : List (Int × String) → Option (Int × String)
  | [] => none
  | c :: cs => some (cs.foldl betterCand c)

/-- The resolver state: `self._symbol_cache` (requested → resolved-or-None). -/
structure Resolver where
  cache : List (String × Option String)
deriving DecidableEq, Repr

/-- Dictionary lookup in the cache. -/
def cacheLookup (cache : List (String × Option String)) (s : String) :
    Option (Option String) :=
  (cache.find? fun p => p.1 == s).map Prod.snd

/-- Dictionary write `self._symbol_cache[s] = v`. -/
def cacheInsert (cache : List (String × Option String)) (s : String)
    (v : Option String) : List (String × Option String) :=
  if cache.any (fun p => p.1 == s) then
    cache.map fun p => if p.1 == s then (s, v) else p
  else cache ++ [(s, v)]

/-- `MT5Connector.resolve_symbol`: empty input is rejected without caching; a
cached request (hit or negative) returns immediately with no provider query;
otherwise ensure the connection (caching `None` on failure), try the exact
`symbol_info` match, then the heuristic/alias scan over `symbols_get`, caching
whatever resulted.  The returned list records the provider queries made
(`symbol_info` / `symbols_get`; the failed-resolution debug sample performs one
more `symbols_get`). -/
def resolve_symbol (pr : Provider) (connOk : Bool) (rs : Resolver)
    (s : String) : Option String × Resolver × List MT5Call :=
  if s = "" then (none, rs, [])
  else
    match cacheLookup rs.cache s with
    | some v => (v, rs, [])
    | none =>
      if !connOk then (none, ⟨cacheInsert rs.cache s none⟩, [])
      else if pr.hasInfo s then
        (some s, ⟨cacheInsert rs.cache s (some s)⟩, [.symbolInfoQuery s])
      else
        let rn := norm_symbol s
        let cands := pr.symbolNames.filterMap fun name =>
          let sc := scoreOf rn (norm_symbol name)
          if 0 < sc then some ((sc : Int) * 1000 - name.length, name) else none
        let resolved := (pickBest cands).map Prod.snd
        (resolved, ⟨cacheInsert rs.cache s resolved⟩,
          [.symbolInfoQuery s, .symbolsGetQuery] ++
            (if resolved = none then [.symbolsGetQuery] else []))

/-! Basic facts about the side-table helpers. -/

lemma map_id_of_mem {α : Type} {f : α → α} :
    ∀ {l : List α}, (∀ a ∈ l, f a = a) → l.map f = l
  | [], _ => rfl
  | a :: l, h => by
    simp only [List.map_cons, List.cons.injEq]
    exact ⟨h a (List.mem_cons_self a l), map_id_of_mem fun b hb => h b (List.mem_cons_of_mem a hb)⟩

lemma ensureSymbol_self_mem (tbl : List String) (s : String) :
    s ∈ ensureSymbol tbl s := by
  unfold ensureSymbol; split <;> simp_all

lemma ensureSymbol_of_mem {tbl : List String} {s : String} (h : s ∈ tbl) :
    ensureSymbol tbl s = tbl := by
  unfold ensureSymbol; simp [h]

lemma ensureSymbol_mono {tbl : List String} {t : String} (s : String) (h : t ∈ tbl) :
    t ∈ ensureSymbol tbl s := by
  unfold ensureSymbol; split <;> simp_all

lemma tfSettled_ensure_self (tbl : List (String × Int)) (tf : String) (m : Int) :
    tfSettled (ensureTimeframe tbl tf m) tf m := by
  unfold ensureTimeframe tfSettled
  split
  · next hany =>
    constructor
    · rcases List.any_eq_true.mp hany with ⟨p, hp, hpk⟩
      refine List.any_eq_true.mpr ⟨(tf, m), ?_, by simp⟩
      refine List.mem_map.mpr ⟨p, hp, ?_⟩
      simp [hpk]
    · intro q hq hqk
      rcases List.mem_map.mp hq with ⟨p, hp, hpe⟩
      by_cases hc : p.1 == tf
      · simp [hc] at hpe; simp [← hpe]
      · simp [hc] at hpe; subst hpe; simp_all
  · next hany =>
    constructor
    · exact List.any_eq_true.mpr ⟨(tf, m), by simp, by simp⟩
    · intro q hq hqk
      rcases List.mem_append.mp hq with hq | hq
      · exact absurd (List.any_eq_true.mpr ⟨q, hq, by simp [hqk]⟩) hany
      · simp only [List.mem_singleton] at hq
        rw [hq]

lemma ensureTimeframe_of_settled {tbl : List (String × Int)} {tf : String} {m : Int}
    (h : tfSettled tbl tf m) : ensureTimeframe tbl tf m = tbl := by
  unfold ensureTimeframe
  rw [if_pos h.1]
  refine map_id_of_mem fun p hp => ?_
  by_cases hc : p.1 == tf
  · have h1 : p.1 = tf := by simpa using hc
    have h2 : p.2 = m := h.2 p hp h1
    simp [hc, ← h1, ← h2]
  · simp [hc]

lemma tfSettled_ensure_ne {tbl : List (String × Int)} {tf tf' : String} {m m' : Int}
    (hne : tf' ≠ tf) (h : tfSettled tbl tf m) :
    tfSettled (ensureTimeframe tbl tf' m') tf m := by
  unfold ensureTimeframe
  split
  · constructor
    · rcases List.any_eq_true.mp h.1 with ⟨p, hp, hpk⟩
      have hp1 : p.1 = tf := by simpa using hpk
      refine List.any_eq_true.mpr ⟨p, ?_, hpk⟩
      refine List.mem_map.mpr ⟨p, hp, ?_⟩
      have hne' : ¬(p.1 == tf') = true := by
        simp only [hp1, beq_iff_eq]
        exact fun hh => hne hh.symm
      simp [hne']
    · intro q hq hqk
      rcases List.mem_map.mp hq with ⟨p, hp, hpe⟩
      by_cases hc : (p.1 == tf') = true
      · simp only [hc, if_pos] at hpe
        rw [← hpe] at hqk
        simp only [] at hqk
        exact absurd hqk hne
      · simp only [hc, if_neg, Bool.false_eq_true, not_false_iff, ite_false] at hpe
        subst hpe
        exact h.2 p hp hqk
  · constructor
    · rcases List.any_eq_true.mp h.1 with ⟨p, hp, hpk⟩
      exact List.any_eq_true.mpr ⟨p, List.mem_append_left _ hp, hpk⟩
    · intro q hq hqk
      rcases List.mem_append.mp hq with hq | hq
      · exact h.2 q hq hqk
      · simp only [List.mem_singleton] at hq
        subst hq
        simp only [] at hqk
        exact absurd hqk hne

/-! Facts about `hasKey` / `findKey`. -/

lemma hasKey_append (l₁ l₂ : List Row) (k : String × String × Int) :
    hasKey (l₁ ++ l₂) k = (hasKey l₁ k || hasKey l₂ k) := by
  simp [hasKey, List.any_append]

lemma hasKey_append_left {l₁ : List Row} {k : String × String × Int}
    (l₂ : List Row) (h : hasKey l₁ k = true) : hasKey (l₁ ++ l₂) k = true := by
  rw [hasKey_append, h, Bool.true_or]

lemma rowKey_toRow (c : Candle) : rowKey (toRow c) = candleKey c := rfl

lemma findKey_append_left {l₁ : List Row} {k : String × String × Int}
    (l₂ : List Row) (h : hasKey l₁ k = true) :
    findKey (l₁ ++ l₂) k = findKey l₁ k := by
  induction l₁ with
  | nil => simp [hasKey] at h
  | cons r l ih =>
    by_cases hr : (rowKey r == k) = true
    · simp [findKey, List.find?, hr]
    · have h' : hasKey l k = true := by
        simpa [hasKey, hr] using h
      simpa [findKey, List.find?, hr] using ih h'

/-! Step lemmas for the FK-schema preamble. -/

lemma symStep_of_mem {st : Store} {sc : List String} {ops : Nat} {c : Candle}
    (h : c.symbol ∈ sc) : symStep st sc ops c = (st, sc, ops) := by
  unfold symStep; simp [h]

lemma symStep_of_not_mem {st : Store} {sc : List String} {ops : Nat} {c : Candle}
    (h : c.symbol ∉ sc) :
    symStep st sc ops c =
      ({ st with symbols := ensureSymbol st.symbols c.symbol },
       sc ++ [c.symbol], ops + 2) := by
  unfold symStep; simp [h]

lemma symStep_fst_rows (st : Store) (sc : List String) (ops : Nat) (c : Candle) :
    (symStep st sc ops c).1.rows = st.rows := by
  unfold symStep; split <;> rfl

lemma symStep_fst_flag (st : Store) (sc : List String) (ops : Nat) (c : Candle) :
    (symStep st sc ops c).1.usesFk = st.usesFk := by
  unfold symStep; split <;> rfl

lemma symStep_fst_timeframes (st : Store) (sc : List String) (ops : Nat) (c : Candle) :
    (symStep st sc ops c).1.timeframes = st.timeframes := by
  unfold symStep; split <;> rfl

lemma symStep_symbols_mono {st : Store} {s : String} (sc : List String) (ops : Nat)
    (c : Candle) (h : s ∈ st.symbols) : s ∈ (symStep st sc ops c).1.symbols := by
  unfold symStep; split
  · exact h
  · exact ensureSymbol_mono _ h

lemma symStep_adds_symbol {st : Store} {sc : List String} (ops : Nat) {c : Candle}
    (h : c.symbol ∉ sc) : c.symbol ∈ (symStep st sc ops c).1.symbols := by
  rw [symStep_of_not_mem h]
  exact ensureSymbol_self_mem st.symbols c.symbol

/-- Everything the insert loop needs to know about one successful run of the
FK preamble. -/
lemma fkPrep_ok_spec {st : Store} {sc tc : List String} {ops : Nat} {c : Candle}
    {st' : Store} {sc' tc' : List String} {ops' : Nat}
    (h : fkPrep st sc tc ops c = .ok (st', sc', tc', ops')) :
    st'.rows = st.rows ∧ st'.usesFk = st.usesFk ∧
    (∀ s ∈ st.symbols, s ∈ st'.symbols) ∧ (∀ t ∈ tc, t ∈ tc') ∧
    (st.usesFk = true → c.symbol ∉ sc → c.symbol ∈ st'.symbols) ∧
    (st.usesFk = true → c.timeframe ∉ tc →
      tfSettled st'.timeframes c.timeframe c.timeframeMinutes ∧
      c.timeframe ∈ tc' ∧ ¬c.timeframeMinutes ≤ 0) ∧
    (∀ tf m, tf ∈ tc → tfSettled st.timeframes tf m → tfSettled st'.timeframes tf m) := by
  unfold fkPrep at h
  by_cases hFk : st.usesFk = true
  · rw [if_pos hFk] at h
    by_cases htc : c.timeframe ∈ tc
    · -- FK schema, timeframe already cached
      rw [if_pos htc] at h
      simp only [Except.ok.injEq, Prod.mk.injEq] at h
      obtain ⟨h1, h2, h3, h4⟩ := h
      subst h1; subst h2; subst h3
      refine ⟨symStep_fst_rows .., symStep_fst_flag .., ?_, fun t ht => ht, ?_, ?_, ?_⟩
      · exact fun s hs => symStep_symbols_mono _ _ _ hs
      · exact fun _ hs => symStep_adds_symbol _ hs
      · exact fun _ hne => absurd htc hne
      · intro tf m _ hs
        rw [symStep_fst_timeframes]; exact hs
    · rw [if_neg htc] at h
      by_cases hm : c.timeframeMinutes ≤ 0
      · -- FK schema, uncached timeframe with non-positive minutes: raises
        rw [if_pos hm] at h
        exact absurd h (by simp)
      · -- FK schema, uncached timeframe, upsert performed
        rw [if_neg hm] at h
        simp only [Except.ok.injEq, Prod.mk.injEq] at h
        obtain ⟨h1, h2, h3, h4⟩ := h
        subst h1; subst h2; subst h3
        refine ⟨symStep_fst_rows .., symStep_fst_flag .., ?_, ?_, ?_, ?_, ?_⟩
        · exact fun s hs => symStep_symbols_mono _ _ _ hs
        · exact fun t ht => List.mem_append_left _ ht
        · exact fun _ hs => symStep_adds_symbol _ hs
        · intro _ _
          refine ⟨tfSettled_ensure_self _ _ _, List.mem_append_right _ (by simp), hm⟩
        · intro tf m htf hs
          have hne : c.timeframe ≠ tf := fun he => htc (he ▸ htf)
          show tfSettled (ensureTimeframe (symStep st sc ops c).1.timeframes
            c.timeframe c.timeframeMinutes) tf m
          rw [symStep_fst_timeframes]
          exact tfSettled_ensure_ne hne hs
  · -- plain schema: preamble is a no-op
    rw [if_neg hFk] at h
    simp only [Except.ok.injEq, Prod.mk.injEq] at h
    obtain ⟨h1, h2, h3, h4⟩ := h
    subst h1; subst h2; subst h3
    exact ⟨rfl, rfl, fun s hs => hs, fun t ht => ht,
      fun hf => absurd hf hFk, fun hf => absurd hf hFk,
      fun tf m _ hs => hs⟩

/-! Unfolding equations for the insert loop. -/

lemma insertLoop_nil (st : Store) (sc tc : List String) (n ops : Nat) :
    insertLoop st sc tc n ops [] = .ok ⟨n, st, ops⟩ := rfl

lemma insertLoop_cons_ok {st : Store} {sc tc : List String} {ops : Nat} {c : Candle}
    {st' : Store} {sc' tc' : List String} {ops' : Nat} (n : Nat) (rest : List Candle)
    (hp : fkPrep st sc tc ops c = .ok (st', sc', tc', ops')) :
    insertLoop st sc tc n ops (c :: rest) =
      if hasKey st'.rows (candleKey c) then
        insertLoop st' sc' tc' n (ops' + 1) rest
      else
        insertLoop { st' with rows := st'.rows ++ [toRow c] } sc' tc'
          (n + 1) (ops' + 1) rest := by
  simp only [insertLoop, hp]

lemma insertLoop_cons_err {st : Store} {sc tc : List String} {ops : Nat} {c : Candle}
    {e : String} (n : Nat) (rest : List Candle)
    (hp : fkPrep st sc tc ops c = .error e) :
    insertLoop st sc tc n ops (c :: rest) = .error e := by
  simp only [insertLoop, hp]

/-- State facts carried along a successful run of the insert loop: rows only
grow by appending, the schema flag is unchanged, the symbol table only grows,
settled timeframe entries for cached keys stay settled, and every candle of the
batch ends up keyed in the final rows. -/
lemma insertLoop_ok_spec :
    ∀ {cs : List Candle} {st : Store} {sc tc : List String} {n ops : Nat}
      {r : InsertOutcome}, insertLoop st sc tc n ops cs = .ok r →
    (∃ ext, r.store.rows = st.rows ++ ext) ∧ r.store.usesFk = st.usesFk ∧
    (∀ s ∈ st.symbols, s ∈ r.store.symbols) ∧
    (∀ tf m, tf ∈ tc → tfSettled st.timeframes tf m →
      tfSettled r.store.timeframes tf m) ∧
    (∀ c ∈ cs, hasKey r.store.rows (candleKey c) = true) := by
  intro cs
  induction cs with
  | nil =>
    intro st sc tc n ops r h
    rw [insertLoop_nil] at h
    simp only [Except.ok.injEq] at h
    subst h
    exact ⟨⟨[], by simp⟩, rfl, fun s hs => hs, fun tf m _ hs => hs, by simp⟩
  | cons c rest ih =>
    intro st sc tc n ops r h
    rcases hfp : fkPrep st sc tc ops c with e | ⟨st', sc', tc', ops'⟩
    · rw [insertLoop_cons_err n rest hfp] at h
      exact absurd h (by simp)
    · obtain ⟨hrows, hflag, hsyms, htcm, _, _, hsetp⟩ := fkPrep_ok_spec hfp
      rw [insertLoop_cons_ok n rest hfp] at h
      by_cases hk : hasKey st'.rows (candleKey c) = true
      · rw [if_pos hk] at h
        obtain ⟨⟨ext, hext⟩, flagR, symsR, settledR, keysR⟩ := ih h
        refine ⟨⟨ext, by rw [hext, hrows]⟩, flagR.trans hflag,
          fun s hs => symsR s (hsyms s hs),
          fun tf m htf hs => settledR tf m (htcm tf htf) (hsetp tf m htf hs), ?_⟩
        intro c0 hc0
        rcases List.mem_cons.mp hc0 with rfl | hc0
        · rw [hext]; exact hasKey_append_left _ hk
        · exact keysR c0 hc0
      · rw [if_neg hk] at h
        obtain ⟨⟨ext, hext⟩, flagR, symsR, settledR, keysR⟩ := ih h
        have hrows'' : ({ st' with rows := st'.rows ++ [toRow c] } : Store).rows
            = st.rows ++ [toRow c] := by
          show st'.rows ++ [toRow c] = st.rows ++ [toRow c]
          rw [hrows]
        refine ⟨⟨[toRow c] ++ ext, by rw [hext, hrows'']; simp⟩,
          flagR.trans hflag, fun s hs => symsR s (hsyms s hs),
          fun tf m htf hs => settledR tf m (htcm tf htf) (hsetp tf m htf hs), ?_⟩
        intro c0 hc0
        have hkey'' : hasKey ({ st' with rows := st'.rows ++ [toRow c] } : Store).rows
            (candleKey c) = true := by
          show hasKey (st'.rows ++ [toRow c]) (candleKey c) = true
          rw [hasKey_append]
          have : hasKey [toRow c] (candleKey c) = true := by
            simp [hasKey, rowKey_toRow]
          rw [this, Bool.or_true]
        rcases List.mem_cons.mp hc0 with rfl | hc0
        · rw [hext]; exact hasKey_append_left _ hkey''
        · exact keysR c0 hc0

/-- When the target store already contains the symbol and a settled timeframe
entry, the FK preamble leaves the store untouched while performing the same
cache updates it performed on the first run. -/
lemma fkPrep_inert {st : Store} {sc tc : List String} {ops : Nat} {c : Candle}
    {st' : Store} {sc' tc' : List String} {ops' : Nat}
    (hp : fkPrep st sc tc ops c = .ok (st', sc', tc', ops'))
    (rst : Store) (hflag : rst.usesFk = st.usesFk)
    (hsym : st.usesFk = true → c.symbol ∉ sc → c.symbol ∈ rst.symbols)
    (htfi : st.usesFk = true → c.timeframe ∉ tc →
      ensureTimeframe rst.timeframes c.timeframe c.timeframeMinutes
        = rst.timeframes)
    (o2 : Nat) : ∃ o2', fkPrep rst sc tc o2 c = .ok (rst, sc', tc', o2') := by
  unfold fkPrep at hp ⊢
  rw [hflag]
  by_cases hFk : st.usesFk = true
  · rw [if_pos hFk] at hp ⊢
    by_cases htc : c.timeframe ∈ tc
    · rw [if_pos htc] at hp ⊢
      simp only [Except.ok.injEq, Prod.mk.injEq] at hp
      obtain ⟨h1, h2, h3, h4⟩ := hp
      by_cases hcs : c.symbol ∈ sc
      · refine ⟨o2, ?_⟩
        rw [symStep_of_mem hcs] at h2 ⊢
        simp only [Except.ok.injEq, Prod.mk.injEq]
        exact ⟨trivial, h2, h3, trivial⟩
      · refine ⟨o2 + 2, ?_⟩
        rw [symStep_of_not_mem hcs] at h2 ⊢
        have he : ensureSymbol rst.symbols c.symbol = rst.symbols :=
          ensureSymbol_of_mem (hsym hFk hcs)
        simp only [Except.ok.injEq, Prod.mk.injEq]
        refine ⟨?_, h2, h3, trivial⟩
        show ({ rst with symbols := ensureSymbol rst.symbols c.symbol } : Store) = rst
        rw [he]
    · rw [if_neg htc] at hp ⊢
      by_cases hm : c.timeframeMinutes ≤ 0
      · rw [if_pos hm] at hp
        exact absurd hp (by simp)
      · rw [if_neg hm] at hp ⊢
        simp only [Except.ok.injEq, Prod.mk.injEq] at hp
        obtain ⟨h1, h2, h3, h4⟩ := hp
        by_cases hcs : c.symbol ∈ sc
        · refine ⟨o2 + 2, ?_⟩
          rw [symStep_of_mem hcs] at h2 ⊢
          simp only [Except.ok.injEq, Prod.mk.injEq]
          refine ⟨?_, h2, h3, trivial⟩
          show ({ rst with
              timeframes := ensureTimeframe rst.timeframes c.timeframe
                c.timeframeMinutes } : Store) = rst
          rw [htfi hFk htc]
        · refine ⟨o2 + 2 + 2, ?_⟩
          rw [symStep_of_not_mem hcs] at h2 ⊢
          have he : ensureSymbol rst.symbols c.symbol = rst.symbols :=
            ensureSymbol_of_mem (hsym hFk hcs)
          simp only [Except.ok.injEq, Prod.mk.injEq]
          refine ⟨?_, h2, h3, trivial⟩
          show ({ ({ rst with symbols := ensureSymbol rst.symbols c.symbol } : Store) with
              timeframes := ensureTimeframe
                ({ rst with symbols := ensureSymbol rst.symbols c.symbol } : Store).timeframes
                c.timeframe c.timeframeMinutes } : Store) = rst
          rw [he]
          show ({ rst with
              timeframes := ensureTimeframe rst.timeframes c.timeframe
                c.timeframeMinutes } : Store) = rst
          rw [htfi hFk htc]
  · rw [if_neg hFk] at hp ⊢
    simp only [Except.ok.injEq, Prod.mk.injEq] at hp
    obtain ⟨h1, h2, h3, h4⟩ := hp
    exact ⟨o2, by simp [h2, h3]⟩

/-- Running the insert loop a second time over the same batch, starting from
the store the first run produced (with fresh per-batch caches as the code
does), inserts nothing and leaves the store unchanged. -/
lemma insertLoop_idem :
    ∀ {cs : List Candle} {st : Store} {sc tc : List String} {n ops : Nat}
      {r : InsertOutcome}, insertLoop st sc tc n ops cs = .ok r →
    ∀ (m o2 : Nat), ∃ o', insertLoop r.store sc tc m o2 cs = .ok ⟨m, r.store, o'⟩ := by
  intro cs
  induction cs with
  | nil =>
    intro st sc tc n ops r h m o2
    rw [insertLoop_nil] at h
    simp only [Except.ok.injEq] at h
    subst h
    exact ⟨o2, rfl⟩
  | cons c rest ih =>
    intro st sc tc n ops r h m o2
    rcases hfp : fkPrep st sc tc ops c with e | ⟨st', sc', tc', ops'⟩
    · rw [insertLoop_cons_err n rest hfp] at h
      exact absurd h (by simp)
    · obtain ⟨hrows, hflag, hsyms, htcm, hpostSym, hpostTf, hsetp⟩ := fkPrep_ok_spec hfp
      rw [insertLoop_cons_ok n rest hfp] at h
      by_cases hk : hasKey st'.rows (candleKey c) = true
      · rw [if_pos hk] at h
        obtain ⟨⟨ext, hext⟩, flagR, symsR, settledR, keysR⟩ := insertLoop_ok_spec h
        have hflagR : r.store.usesFk = st.usesFk := flagR.trans hflag
        have hkeyR : hasKey r.store.rows (candleKey c) = true := by
          rw [hext]; exact hasKey_append_left _ hk
        have hsymR : st.usesFk = true → c.symbol ∉ sc →
            c.symbol ∈ r.store.symbols :=
          fun hFk hcs => symsR _ (hpostSym hFk hcs)
        have htfiR : st.usesFk = true → c.timeframe ∉ tc →
            ensureTimeframe r.store.timeframes c.timeframe c.timeframeMinutes
              = r.store.timeframes := by
          intro hFk htc
          obtain ⟨hset, htc', _⟩ := hpostTf hFk htc
          exact ensureTimeframe_of_settled
            (settledR c.timeframe c.timeframeMinutes htc' hset)
        obtain ⟨o2x, hfp2⟩ := fkPrep_inert hfp r.store hflagR hsymR htfiR o2
        rw [insertLoop_cons_ok m rest hfp2, if_pos hkeyR]
        exact ih h m (o2x + 1)
      · rw [if_neg hk] at h
        obtain ⟨⟨ext, hext⟩, flagR, symsR, settledR, keysR⟩ := insertLoop_ok_spec h
        have hflagR : r.store.usesFk = st.usesFk := flagR.trans hflag
        have hkey'' : hasKey ({ st' with rows := st'.rows ++ [toRow c] } : Store).rows
            (candleKey c) = true := by
          show hasKey (st'.rows ++ [toRow c]) (candleKey c) = true
          rw [hasKey_append]
          have : hasKey [toRow c] (candleKey c) = true := by
            simp [hasKey, rowKey_toRow]
          rw [this, Bool.or_true]
        have hkeyR : hasKey r.store.rows (candleKey c) = true := by
          rw [hext]; exact hasKey_append_left _ hkey''
        have hsymR : st.usesFk = true → c.symbol ∉ sc →
            c.symbol ∈ r.store.symbols :=
          fun hFk hcs => symsR _ (hpostSym hFk hcs)
        have htfiR : st.usesFk = true → c.timeframe ∉ tc →
            ensureTimeframe r.store.timeframes c.timeframe c.timeframeMinutes
              = r.store.timeframes := by
          intro hFk htc
          obtain ⟨hset, htc', _⟩ := hpostTf hFk htc
          exact ensureTimeframe_of_settled
            (settledR c.timeframe c.timeframeMinutes htc' hset)
        obtain ⟨o2x, hfp2⟩ := fkPrep_inert hfp r.store hflagR hsymR htfiR o2
        rw [insertLoop_cons_ok m rest hfp2, if_pos hkeyR]
        exact ih h m (o2x + 1)

/-- C1: inserting the same bar batch twice is idempotent.  If
`insert_candles S B` succeeds and produces store `S'`, then re-running
`insert_candles S' B` changes no stored row (it returns `S'` itself) and
reports an inserted count of 0 for the re-delivered keys; moreover a bar
already stored under its `(symbol, timeframe, timestamp)` key is never updated
by a later insert of the same key (the first row stored under any existing key
is exactly the row found before the insert). -/
theorem insert_candles_idempotent (S : Store) (B : List Candle) (r : InsertOutcome)
    (h : insert_candles S B = .ok r) :
    (∃ ops2, insert_candles r.store B = .ok ⟨0, r.store, ops2⟩) ∧
    (∀ k, hasKey S.rows k = true → findKey r.store.rows k = findKey S.rows k) := by
  by_cases hB : B = []
  · subst hB
    rw [insert_candles, if_pos rfl] at h
    simp only [Except.ok.injEq] at h
    subst h
    exact ⟨⟨0, rfl⟩, fun k _ => rfl⟩
  · rw [insert_candles, if_neg hB] at h
    refine ⟨?_, ?_⟩
    · obtain ⟨o', ho⟩ := insertLoop_idem h 0 0
      exact ⟨o', by rw [insert_candles, if_neg hB]; exact ho⟩
    · obtain ⟨⟨ext, hext⟩, _, _, _, _⟩ := insertLoop_ok_spec h
      intro k hk
      rw [hext]
      exact findKey_append_left ext hk

/-- Witness for C1: a concrete one-candle batch inserted into the empty store;
the second insertion returns count 0 and the same store. -/
theorem insert_candles_idempotent_witness :
    (∃ ops2, insert_candles wStoreOne [wCandle] = .ok ⟨0, wStoreOne, ops2⟩) ∧
    (∀ k, hasKey wStoreEmpty.rows k = true →
      findKey wStoreOne.rows k = findKey wStoreEmpty.rows k) :=
  insert_candles_idempotent wStoreEmpty [wCandle] ⟨1, wStoreOne, 1⟩ (by rfl)

/-- C10: inserting an empty candle list is a no-op at the public store
interface: it returns 0, performs no database operation (0 SQL statements
executed), and leaves the store — all rows and tables — unchanged. -/
theorem insert_candles_empty_noop (S : Store) :
    insert_candles S [] = .ok ⟨0, S, 0⟩ := by
  rw [insert_candles, if_pos rfl]

/-! ## C4: gap detection -/

lemma expected_interval_seconds_eq (m : Int) :
    expected_interval_seconds m = 90 * m := by
  unfold expected_interval_seconds
  have h : m * 60 * 3 = 90 * m * 2 := by ring
  rw [h, Int.mul_ediv_cancel _ (by norm_num)]

lemma gapsLoop_some_eq (thr : Int) :
    ∀ (ts : List Int) (p : Int),
      gapsLoop thr (some p) ts =
        ((p :: ts).zip ts).filter (fun q => decide (thr < q.2 - q.1))
  | [], _ => rfl
  | t :: ts, p => by
    rw [gapsLoop]
    by_cases hc : thr < t - p
    · rw [if_pos hc]
      simp only [List.zip_cons_cons, List.filter_cons]
      rw [gapsLoop_some_eq thr ts t]
      simp [hc]
    · rw [if_neg hc]
      simp only [List.zip_cons_cons, List.filter_cons]
      rw [gapsLoop_some_eq thr ts t]
      simp [hc]

lemma gapsLoop_none_eq (thr : Int) (ts : List Int) :
    gapsLoop thr none ts =
      (ts.zip ts.tail).filter (fun q => decide (thr < q.2 - q.1)) := by
  cases ts with
  | nil => rfl
  | cons t ts => rw [gapsLoop, gapsLoop_some_eq]; rfl

/-- C4: gap detection returns exactly the adjacent pairs of ascending stored
timestamps in the window whose delta strictly exceeds
`1.5 × intervalMinutes × 60 = 90 × intervalMinutes` seconds; fewer than two
stored timestamps yield no gaps; two bars exactly `1.5 × interval` apart (450 s
for M5) are not a gap while `1.5 × interval + 1` seconds (451 s) are. -/
theorem detect_gaps_exact :
    (∀ (st : Store) (sym tf : String) (a b m : Int),
      detect_gaps st sym tf a b m =
        ((windowTimestamps st sym tf a b).zip
          (windowTimestamps st sym tf a b).tail).filter
          (fun q => decide (90 * m < q.2 - q.1))) ∧
    (∀ (st : Store) (sym tf : String) (a b m : Int),
      (windowTimestamps st sym tf a b).length < 2 →
      detect_gaps st sym tf a b m = []) ∧
    detect_gaps (twoBarStore 0 450) "S" "M5" 0 1000 5 = [] ∧
    detect_gaps (twoBarStore 0 451) "S" "M5" 0 1000 5 = [(0, 451)] := by
  have hmain : ∀ (st : Store) (sym tf : String) (a b m : Int),
      detect_gaps st sym tf a b m =
        ((windowTimestamps st sym tf a b).zip
          (windowTimestamps st sym tf a b).tail).filter
          (fun q => decide (90 * m < q.2 - q.1)) := by
    intro st sym tf a b m
    unfold detect_gaps
    by_cases hlen : (windowTimestamps st sym tf a b).length < 2
    · rw [if_pos hlen]
      rcases hw : windowTimestamps st sym tf a b with _ | ⟨t, _ | ⟨u, us⟩⟩
      · rfl
      · rfl
      · rw [hw] at hlen
        simp only [List.length_cons] at hlen
        omega
    · rw [if_neg hlen, gapsLoop_none_eq, expected_interval_seconds_eq]
  refine ⟨hmain, fun st sym tf a b m hlen => ?_, by decide, by decide⟩
  unfold detect_gaps
  rw [if_pos hlen]

/-- Witness for the fewer-than-two clause of C4 at the empty store. -/
theorem detect_gaps_exact_witness :
    detect_gaps wStoreEmpty "S" "M5" 0 1000 5 = [] :=
  detect_gaps_exact.2.1 wStoreEmpty "S" "M5" 0 1000 5 (by decide)

/-! ## C3: backfill resume point -/

/-- C3: when the store's high-water mark for the series is `H` (the maximum
stored timestamp, witnessed by a stored row and an upper bound over the
series), the sync begins its fetch at exactly `H - 1 day` — which differs from
`H` — and when the series has no stored bar it begins at
`now - lookbackDays`. -/
theorem sync_resume_point (connOk symbolOk : Bool) (o : SourceOracle)
    (st : Store) (sym tf : String) (now daysBack H : Int) :
    (get_last_candle_timestamp st sym tf = some H →
      (sync_historical_data connOk symbolOk o st sym tf now daysBack).1
          = H - oneDay ∧
      H - oneDay ≠ H ∧
      (∃ r ∈ st.rows, r.symbol = sym ∧ r.timeframe = tf ∧ r.timestamp = H) ∧
      (∀ r ∈ st.rows, r.symbol = sym → r.timeframe = tf → r.timestamp ≤ H)) ∧
    (get_last_candle_timestamp st sym tf = none →
      (sync_historical_data connOk symbolOk o st sym tf now daysBack).1
          = now - daysBack * oneDay) := by
  constructor
  · intro hH
    have hmax := hH
    unfold get_last_candle_timestamp at hmax
    have hanti : Std.Antisymm (α := Int) (· ≤ ·) :=
      ⟨fun h1 h2 => le_antisymm h1 h2⟩
    rw [List.max?_eq_some_iff] at hmax
    · obtain ⟨hmem, hub⟩ := hmax
      refine ⟨?_, ?_, ?_, ?_⟩
      · show sync_start_date st sym tf now daysBack = H - oneDay
        unfold sync_start_date
        rw [hH]
      · have h1 : oneDay = 86400 := rfl
        omega
      · rcases List.mem_map.mp hmem with ⟨r, hrf, hrt⟩
        rcases List.mem_filter.mp hrf with ⟨hr, hp⟩
        simp only [Bool.and_eq_true, beq_iff_eq] at hp
        exact ⟨r, hr, hp.1, hp.2, hrt⟩
      · intro r hr hs ht
        exact hub _ (List.mem_map.mpr
          ⟨r, List.mem_filter.mpr ⟨hr, by simp [hs, ht]⟩, rfl⟩)
    all_goals simp [le_total]
  · intro hnone
    show sync_start_date st sym tf now daysBack = now - daysBack * oneDay
    unfold sync_start_date
    rw [hnone]

/-- Witness for C3: the one-bar store resumes at its bar's timestamp minus one
day; the empty store falls back to the full lookback window. -/
theorem sync_resume_point_witness :
    ((sync_historical_data true true wOracle wStoreOne "US30" "H1"
        1893456000 365).1 = 1704067200 - oneDay ∧
      (1704067200 : Int) - oneDay ≠ 1704067200 ∧
      (∃ r ∈ wStoreOne.rows, r.symbol = "US30" ∧ r.timeframe = "H1" ∧
        r.timestamp = 1704067200) ∧
      (∀ r ∈ wStoreOne.rows, r.symbol = "US30" → r.timeframe = "H1" →
        r.timestamp ≤ 1704067200)) ∧
    (sync_historical_data true true wOracle wStoreEmpty "US30" "H1"
        1893456000 365).1 = 1893456000 - 365 * oneDay :=
  ⟨(sync_resume_point true true wOracle wStoreOne "US30" "H1"
      1893456000 365 1704067200).1 (by decide),
   (sync_resume_point true true wOracle wStoreEmpty "US30" "H1"
      1893456000 365 1704067200).2 (by decide)⟩

/-! ## Step lemmas for the chunked fetch loop -/

lemma fetchLoop_stop {o : SourceOracle} {sym tf : String} {cm endT cursor delta : Int}
    {hδ : 0 < delta} (h : ¬cursor < endT) :
    fetchLoop o sym tf cm endT cursor delta hδ = .ok ([], []) := by
  rw [fetchLoop]
  simp [h]

lemma fetchLoop_shrink {o : SourceOracle} {sym tf : String}
    {cm endT cursor delta : Int} {hδ : 0 < delta} (hlt : cursor < endT)
    (hrs : (o cursor (min endT (cursor + delta))).rates = none ∨
      (o cursor (min endT (cursor + delta))).rates = some [])
    (hinv : (o cursor (min endT (cursor + delta))).invalidParams = true)
    (hday : oneDay < delta) :
    fetchLoop o sym tf cm endT cursor delta hδ =
      fetchLoop o sym tf cm endT cursor (max oneDay (delta / 2))
        (lt_of_lt_of_le oneDay_pos (le_max_left oneDay (delta / 2))) := by
  rw [fetchLoop]
  rcases hrs with h | h <;>
    simp [dif_pos hlt, h, hinv, hday]

lemma fetchLoop_skip {o : SourceOracle} {sym tf : String}
    {cm endT cursor delta : Int} {hδ : 0 < delta} (hlt : cursor < endT)
    (hrs : (o cursor (min endT (cursor + delta))).rates = none ∨
      (o cursor (min endT (cursor + delta))).rates = some [])
    (hcond : ((o cursor (min endT (cursor + delta))).invalidParams
      && decide (oneDay < delta)) = false) :
    fetchLoop o sym tf cm endT cursor delta hδ =
      match fetchLoop o sym tf cm endT (min endT (cursor + delta)) delta hδ with
      | .error e => .error e
      | .ok (cs', evs) =>
        .ok (cs', .skipped cursor (min endT (cursor + delta)) :: evs) := by
  rw [fetchLoop]
  rcases hrs with h | h <;>
    simp [dif_pos hlt, h, hcond]

lemma fetchLoop_data {o : SourceOracle} {sym tf : String}
    {cm endT cursor delta : Int} {hδ : 0 < delta} {rs : List Rate}
    (hlt : cursor < endT)
    (hrs : (o cursor (min endT (cursor + delta))).rates = some rs)
    (hne : rs ≠ []) :
    fetchLoop o sym tf cm endT cursor delta hδ =
      match convert_rates_to_candles sym tf cm rs with
      | .error e => .error e
      | .ok cs =>
        match fetchLoop o sym tf cm endT (min endT (cursor + delta)) delta hδ with
        | .error e => .error e
        | .ok (cs', evs) =>
          .ok (cs ++ cs', .fetched cursor (min endT (cursor + delta))
            rs.length :: evs) := by
  rw [fetchLoop]
  simp [dif_pos hlt, hrs, hne]

lemma chunkList_stop {endT span : Int} {hspan : 0 < span} {cursor : Int}
    (h : ¬cursor < endT) : chunkList endT span hspan cursor = [] := by
  rw [chunkList]
  simp [h]

lemma chunkList_step {endT span : Int} {hspan : 0 < span} {cursor : Int}
    (h : cursor < endT) :
    chunkList endT span hspan cursor =
      (cursor, min endT (cursor + span)) ::
        chunkList endT span hspan (min endT (cursor + span)) := by
  rw [chunkList]
  simp [h]

/-! ## C2: chunking covers the range exactly -/

lemma chunkList_cover (endT span : Int) (hspan : 0 < span) :
    ∀ (n : Nat) (cursor : Int), (endT - cursor).toNat ≤ n → cursor < endT →
      chunkList endT span hspan cursor ≠ [] ∧
      ((chunkList endT span hspan cursor).map Prod.fst).head? = some cursor ∧
      ((chunkList endT span hspan cursor).map Prod.snd).getLast? = some endT ∧
      (∀ p ∈ chunkList endT span hspan cursor,
        p.1 < p.2 ∧ p.2 ≤ endT ∧ cursor ≤ p.1) ∧
      (chunkList endT span hspan cursor).Chain' (fun p q => p.2 = q.1) := by
  intro n
  induction n with
  | zero =>
    intro cursor hn hlt
    exfalso
    omega
  | succ n ih =>
    intro cursor hn hlt
    have hcur_lt_ce : cursor < min endT (cursor + span) := lt_min hlt (by omega)
    have hce_le : min endT (cursor + span) ≤ endT := min_le_left _ _
    rw [chunkList_step hlt]
    by_cases h2 : min endT (cursor + span) < endT
    · have hn' : (endT - min endT (cursor + span)).toNat ≤ n := by omega
      obtain ⟨hne, hhead, hlast, hbounds, hchain⟩ := ih _ hn' h2
      refine ⟨by simp, by simp, ?_, ?_, ?_⟩
      · rcases hcs : chunkList endT span hspan (min endT (cursor + span))
          with _ | ⟨q, qs⟩
        · exact absurd hcs hne
        · rw [hcs] at hlast
          simp only [List.map_cons] at hlast ⊢
          rw [List.getLast?_cons_cons]
          exact hlast
      · intro p hp
        rcases List.mem_cons.mp hp with rfl | hp
        · exact ⟨hcur_lt_ce, hce_le, le_refl _⟩
        · obtain ⟨h1, h2', h3⟩ := hbounds p hp
          exact ⟨h1, h2', le_of_lt (lt_of_lt_of_le hcur_lt_ce h3)⟩
      · rcases hcs : chunkList endT span hspan (min endT (cursor + span))
          with _ | ⟨q, qs⟩
        · simp
        · rw [hcs] at hhead hchain
          refine List.chain'_cons.mpr ⟨?_, hchain⟩
          simp only [List.map_cons, List.head?_cons, Option.some.injEq] at hhead
          exact hhead.symm
    · have hce_eq : min endT (cursor + span) = endT :=
        le_antisymm hce_le (not_lt.mp h2)
      rw [chunkList_stop h2]
      refine ⟨by simp, by simp, by simp [hce_eq], ?_, by simp⟩
      intro p hp
      rw [List.mem_singleton] at hp
      subst hp
      exact ⟨hcur_lt_ce, hce_le, le_refl _⟩

/-- With a terminal that always answers "no data, no invalid-params error",
the fetch walk skips exactly the chunk list's sub-ranges. -/
lemma fetchLoop_all_skip (o : SourceOracle) (sym tf : String)
    (cm endT span : Int) (hspan : 0 < span)
    (ho : ∀ s e, (o s e).rates = none ∧ (o s e).invalidParams = false) :
    ∀ (n : Nat) (cursor : Int), (endT - cursor).toNat ≤ n →
      fetchLoop o sym tf cm endT cursor span hspan =
        .ok ([], (chunkList endT span hspan cursor).map
          (fun p => FetchEvent.skipped p.1 p.2)) := by
  intro n
  induction n with
  | zero =>
    intro cursor hn
    have hlt : ¬cursor < endT := by omega
    rw [fetchLoop_stop hlt, chunkList_stop hlt]
    rfl
  | succ n ih =>
    intro cursor hn
    by_cases hlt : cursor < endT
    · have hcond : ((o cursor (min endT (cursor + span))).invalidParams
          && decide (oneDay < span)) = false := by
        rw [(ho _ _).2, Bool.false_and]
      have hcur_lt_ce : cursor < min endT (cursor + span) := lt_min hlt (by omega)
      have hn' : (endT - min endT (cursor + span)).toNat ≤ n := by
        have := min_le_left endT (cursor + span)
        omega
      rw [fetchLoop_skip hlt (Or.inl (ho _ _).1) hcond, ih _ hn',
        chunkList_step hlt]
      rfl
    · rw [fetchLoop_stop hlt, chunkList_stop hlt]
      rfl

/-- C2: for every range `[start, end)` with `start < end` and every positive
interval-minutes `m` and max-bars-per-call `k`, the chunk walk with span
`m * k` minutes (`m * k * 60` seconds) produces non-empty sub-ranges that are
adjacent and ordered, start at `start`, stay inside the range, and end exactly
at `end`; and this is exactly the sequence of sub-ranges the fetch loop walks
(shown against a terminal whose calls all fail without an invalid-params
error, so the span never shrinks). -/
theorem chunk_planner_exact_cover (m k startT endT : Int) (hm : 0 < m)
    (hk : 0 < k) (hspan : 0 < m * k * 60) (hlt : startT < endT) :
    (chunkList endT (m * k * 60) hspan startT ≠ [] ∧
     ((chunkList endT (m * k * 60) hspan startT).map Prod.fst).head?
        = some startT ∧
     ((chunkList endT (m * k * 60) hspan startT).map Prod.snd).getLast?
        = some endT ∧
     (∀ p ∈ chunkList endT (m * k * 60) hspan startT,
        p.1 < p.2 ∧ p.2 ≤ endT ∧ startT ≤ p.1) ∧
     (chunkList endT (m * k * 60) hspan startT).Chain'
        (fun p q => p.2 = q.1)) ∧
    (∀ (o : SourceOracle) (sym tf : String) (cm : Int),
      (∀ s e, (o s e).rates = none ∧ (o s e).invalidParams = false) →
      fetchLoop o sym tf cm endT startT (m * k * 60) hspan =
        .ok ([], (chunkList endT (m * k * 60) hspan startT).map
          (fun p => FetchEvent.skipped p.1 p.2))) := by
  constructor
  · exact chunkList_cover endT (m * k * 60) hspan (endT - startT).toNat startT
      (le_refl _) hlt
  · intro o sym tf cm ho
    exact fetchLoop_all_skip o sym tf cm endT (m * k * 60) hspan ho
      (endT - startT).toNat startT (le_refl _)

/-- Witness for C2: concrete M5-style chunking over `[0, 100)`. -/
theorem chunk_planner_exact_cover_witness :
    chunkList 100 (5 * 50000 * 60) (by norm_num) 0 ≠ [] ∧
    ((chunkList 100 (5 * 50000 * 60) (by norm_num) 0).map Prod.fst).head?
      = some 0 ∧
    ((chunkList 100 (5 * 50000 * 60) (by norm_num) 0).map Prod.snd).getLast?
      = some 100 ∧
    (∀ p ∈ chunkList 100 (5 * 50000 * 60) (by norm_num) 0,
      p.1 < p.2 ∧ p.2 ≤ 100 ∧ 0 ≤ p.1) ∧
    (chunkList 100 (5 * 50000 * 60) (by norm_num) 0).Chain'
      (fun p q => p.2 = q.1) :=
  (chunk_planner_exact_cover 5 50000 0 100 (by norm_num) (by norm_num)
    (by norm_num) (by norm_num)).1

/-! ## C5: adaptive shrink on invalid-params failures -/

/-- C5: when the fetch over the current chunk fails and `mt5.last_error()`
reads "Invalid params", then while the span exceeds one day the span is halved
(floored at one day) and the same cursor is retried with the smaller span; once
the span is at the one-day floor, the failing sub-range is skipped with a
logged warning and the walk continues with the next sub-range — the failure is
never fatal to the whole fetch. -/
theorem invalid_range_shrink_floor_skip (o : SourceOracle) (sym tf : String)
    (cm endT cursor delta : Int) (hδ : 0 < delta) (hlt : cursor < endT)
    (hrs : (o cursor (min endT (cursor + delta))).rates = none ∨
      (o cursor (min endT (cursor + delta))).rates = some [])
    (hinv : (o cursor (min endT (cursor + delta))).invalidParams = true) :
    (oneDay < delta →
      fetchLoop o sym tf cm endT cursor delta hδ =
        fetchLoop o sym tf cm endT cursor (max oneDay (delta / 2))
          (lt_of_lt_of_le oneDay_pos (le_max_left oneDay (delta / 2)))) ∧
    (delta ≤ oneDay →
      fetchLoop o sym tf cm endT cursor delta hδ =
        match fetchLoop o sym tf cm endT (min endT (cursor + delta)) delta hδ with
        | .error e => .error e
        | .ok (cs', evs) =>
          .ok (cs', .skipped cursor (min endT (cursor + delta)) :: evs)) := by
  constructor
  · intro hday
    exact fetchLoop_shrink hlt hrs hinv hday
  · intro hfloor
    refine fetchLoop_skip hlt hrs ?_
    rw [hinv, Bool.true_and]
    exact decide_eq_false (by omega)

/-- Witness for C5: against the always-invalid terminal, a two-day span is
halved and retried at cursor 0, and a one-day span leads to a logged skip. -/
theorem invalid_range_shrink_floor_skip_witness :
    (fetchLoop invOracle "US30" "M5" 5 100 0 172800 (by norm_num) =
      fetchLoop invOracle "US30" "M5" 5 100 0 (max oneDay (172800 / 2))
        (lt_of_lt_of_le oneDay_pos (le_max_left oneDay (172800 / 2)))) ∧
    (fetchLoop invOracle "US30" "M5" 5 100 0 86400 (by norm_num) =
      match fetchLoop invOracle "US30" "M5" 5 100 (min 100 (0 + 86400)) 86400
          (by norm_num) with
      | .error e => .error e
      | .ok (cs', evs) => .ok (cs', .skipped 0 (min 100 (0 + 86400)) :: evs)) :=
  ⟨(invalid_range_shrink_floor_skip invOracle "US30" "M5" 5 100 0 172800
      (by norm_num) (by norm_num) (Or.inl rfl) rfl).1 (by decide),
   (invalid_range_shrink_floor_skip invOracle "US30" "M5" 5 100 0 86400
      (by norm_num) (by norm_num) (Or.inl rfl) rfl).2 (by decide)⟩

/-! ## C7: a conversion exception drops the whole fetched batch -/

/-- Counterexample to C7: the fetched batch `[gRate1, badRate, gRate2]` has one
inconvertible record; the other two records convert fine on their own, yet the
fetch returns `[]` — the conversion exception propagates to the fetch's
catch-all and every record of the batch is dropped, not just the failing
one. -/
theorem conversion_failure_counterexample :
    fetch_historical_data true true c7Oracle "US30" "M1" 0 1000 = [] ∧
    convert_rates_to_candles "US30" "M1" 1 [gRate1, gRate2] =
      .ok [⟨"US30", "M1", 1, 500, 1, 2, 3, 4, 5⟩,
           ⟨"US30", "M1", 1, 600, 1, 2, 3, 4, 5⟩] := by
  constructor
  · have hloop : fetchLoop c7Oracle "US30" "M1" (tfMinutesOr0 "M1") 1000 0
        (initialChunkDelta "M1") (initialChunkDelta_pos "M1") =
        .error "timestamp out of range" := by
      rw [fetchLoop_data (by norm_num) rfl (by decide)]
      rfl
    simp [fetch_historical_data, hloop]
  · rfl

/-- C7 amended: when the single chunk covering `[start, end)` returns a
non-empty batch, a conversion exception for any one record makes the whole
fetch return `[]` (all records dropped), while a fully convertible batch is
returned in full. -/
theorem conversion_failure_drops_whole_batch (o : SourceOracle)
    (sym tf : String) (startT endT : Int) (rs : List Rate)
    (htf : (timeframeMinutesOf tf).isNone = false)
    (hlt : startT < endT) (hsingle : endT ≤ startT + initialChunkDelta tf)
    (hrs : (o startT (min endT (startT + initialChunkDelta tf))).rates
      = some rs)
    (hne : rs ≠ []) :
    (∀ e, convert_rates_to_candles sym tf (tfMinutesOr0 tf) rs = .error e →
      fetch_historical_data true true o sym tf startT endT = []) ∧
    (∀ cs, convert_rates_to_candles sym tf (tfMinutesOr0 tf) rs = .ok cs →
      fetch_historical_data true true o sym tf startT endT = cs) := by
  have hmin : min endT (startT + initialChunkDelta tf) = endT :=
    min_eq_left hsingle
  constructor
  · intro e hconv
    have hloop : fetchLoop o sym tf (tfMinutesOr0 tf) endT startT
        (initialChunkDelta tf) (initialChunkDelta_pos tf) = .error e := by
      rw [fetchLoop_data hlt hrs hne, hconv]
    simp [fetch_historical_data, htf, hloop]
  · intro cs hconv
    have hstop : fetchLoop o sym tf (tfMinutesOr0 tf) endT endT
        (initialChunkDelta tf) (initialChunkDelta_pos tf) = .ok ([], []) :=
      fetchLoop_stop (lt_irrefl endT)
    have hloop : fetchLoop o sym tf (tfMinutesOr0 tf) endT startT
        (initialChunkDelta tf) (initialChunkDelta_pos tf) =
        .ok (cs ++ [], [.fetched startT endT rs.length]) := by
      rw [fetchLoop_data hlt hrs hne, hconv, hmin, hstop]
    simp [fetch_historical_data, htf, hloop]

/-- Witness for the amended C7 at the concrete mixed batch. -/
theorem conversion_failure_drops_whole_batch_witness :
    (∀ e, convert_rates_to_candles "US30" "M1" (tfMinutesOr0 "M1")
        [gRate1, badRate, gRate2] = .error e →
      fetch_historical_data true true c7Oracle "US30" "M1" 0 1000 = []) ∧
    (∀ cs, convert_rates_to_candles "US30" "M1" (tfMinutesOr0 "M1")
        [gRate1, badRate, gRate2] = .ok cs →
      fetch_historical_data true true c7Oracle "US30" "M1" 0 1000 = cs) :=
  conversion_failure_drops_whole_batch c7Oracle "US30" "M1" 0 1000
    [gRate1, badRate, gRate2] (by decide) (by norm_num) (by decide) rfl
    (by decide)

/-! ## C8: reconnect policy -/

lemma countAttempts_nil : countAttempts [] = 0 := rfl

lemma countSleeps_nil : countSleeps [] = 0 := rfl

lemma countAttempts_cons_attempt (i : Nat) (evs : List ConnEvent) :
    countAttempts (.attempt i :: evs) = countAttempts evs + 1 := by
  simp [countAttempts, List.countP_cons]

lemma countAttempts_cons_sleep (d : Nat) (evs : List ConnEvent) :
    countAttempts (.sleep d :: evs) = countAttempts evs := by
  simp [countAttempts, List.countP_cons]

lemma countSleeps_cons_attempt (i : Nat) (evs : List ConnEvent) :
    countSleeps (.attempt i :: evs) = countSleeps evs := by
  simp [countSleeps, List.countP_cons]

lemma countSleeps_cons_sleep (d : Nat) (evs : List ConnEvent) :
    countSleeps (.sleep d :: evs) = countSleeps evs + 1 := by
  simp [countSleeps, List.countP_cons]

/-- Branch equations for the attempt loop. -/
lemma reconnectFrom_stop {ok : Nat → Bool} {maxA delay i : Nat}
    (h : maxA < i) : reconnectFrom ok maxA delay i = (false, []) := by
  rw [reconnectFrom, if_pos h]

lemma reconnectFrom_hit {ok : Nat → Bool} {maxA delay i : Nat}
    (h1 : ¬maxA < i) (h2 : ok i = true) :
    reconnectFrom ok maxA delay i = (true, [.attempt i]) := by
  rw [reconnectFrom, if_neg h1, if_pos h2]

lemma reconnectFrom_fail_cont {ok : Nat → Bool} {maxA delay i : Nat}
    (h1 : ¬maxA < i) (h2 : ¬ok i = true) (h3 : i < maxA) :
    reconnectFrom ok maxA delay i =
      ((reconnectFrom ok maxA delay (i + 1)).1,
        .attempt i :: .sleep delay :: (reconnectFrom ok maxA delay (i + 1)).2) := by
  rw [reconnectFrom, if_neg h1, if_neg h2, if_pos h3]

lemma reconnectFrom_fail_last {ok : Nat → Bool} {maxA delay i : Nat}
    (h1 : ¬maxA < i) (h2 : ¬ok i = true) (h3 : ¬i < maxA) :
    reconnectFrom ok maxA delay i = (false, [.attempt i]) := by
  rw [reconnectFrom, if_neg h1, if_neg h2, if_neg h3]

/-- Full behaviour of the attempt loop from attempt index `i`. -/
lemma reconnectFrom_spec (ok : Nat → Bool) (maxA delay : Nat) :
    ∀ (n i : Nat), maxA + 1 - i ≤ n →
      ((reconnectFrom ok maxA delay i).1 = true ↔
        ∃ j, i ≤ j ∧ j ≤ maxA ∧ ok j = true) ∧
      countAttempts (reconnectFrom ok maxA delay i).2 ≤ maxA + 1 - i ∧
      countSleeps (reconnectFrom ok maxA delay i).2
        = countAttempts (reconnectFrom ok maxA delay i).2 - 1 ∧
      (i ≤ maxA → 1 ≤ countAttempts (reconnectFrom ok maxA delay i).2) ∧
      (∀ j, ConnEvent.attempt j ∈ (reconnectFrom ok maxA delay i).2 →
        i ≤ j ∧ j ≤ maxA) ∧
      ((reconnectFrom ok maxA delay i).1 = true →
        ∃ j, ok j = true ∧
          i + countAttempts (reconnectFrom ok maxA delay i).2 = j + 1 ∧
          ∀ l, i ≤ l → l < j → ok l = false) ∧
      ((reconnectFrom ok maxA delay i).1 = false →
        countAttempts (reconnectFrom ok maxA delay i).2 = maxA + 1 - i) ∧
      ((reconnectFrom ok maxA delay i).2 ≠ [] →
        ∃ j, (reconnectFrom ok maxA delay i).2.getLast?
          = some (.attempt j)) := by
  intro n
  induction n with
  | zero =>
    intro i hn
    have hlt : maxA < i := by omega
    rw [reconnectFrom_stop hlt]
    refine ⟨?_, ?_, ?_, ?_, ?_, ?_, ?_, ?_⟩
    · show ((false : Bool) = true ↔ _)
      simp only [Bool.false_eq_true, false_iff]
      rintro ⟨j, h1, h2, _⟩
      omega
    · show countAttempts [] ≤ maxA + 1 - i
      rw [countAttempts_nil]
      omega
    · show countSleeps [] = countAttempts [] - 1
      rw [countAttempts_nil, countSleeps_nil]
    · intro h
      omega
    · intro j hj
      simp at hj
    · intro h
      simp at h
    · intro _
      show countAttempts [] = maxA + 1 - i
      rw [countAttempts_nil]
      omega
    · intro h
      simp at h
  | succ n ih =>
    intro i hn
    by_cases hgt : maxA < i
    · rw [reconnectFrom_stop hgt]
      refine ⟨?_, ?_, ?_, ?_, ?_, ?_, ?_, ?_⟩
      · show ((false : Bool) = true ↔ _)
        simp only [Bool.false_eq_true, false_iff]
        rintro ⟨j, h1, h2, _⟩
        omega
      · show countAttempts [] ≤ maxA + 1 - i
        rw [countAttempts_nil]
        omega
      · show countSleeps [] = countAttempts [] - 1
        rw [countAttempts_nil, countSleeps_nil]
      · intro h
        omega
      · intro j hj
        simp at hj
      · intro h
        simp at h
      · intro _
        show countAttempts [] = maxA + 1 - i
        rw [countAttempts_nil]
        omega
      · intro h
        simp at h
    · have hle : i ≤ maxA := by omega
      by_cases hok : ok i = true
      · rw [reconnectFrom_hit hgt hok]
        refine ⟨?_, ?_, ?_, ?_, ?_, ?_, ?_, ?_⟩
        · show ((true : Bool) = true ↔ _)
          simp only [true_iff]
          exact ⟨i, le_refl _, hle, hok⟩
        · show countAttempts [ConnEvent.attempt i] ≤ maxA + 1 - i
          rw [countAttempts_cons_attempt, countAttempts_nil]
          omega
        · show countSleeps [ConnEvent.attempt i]
            = countAttempts [ConnEvent.attempt i] - 1
          rw [countSleeps_cons_attempt, countSleeps_nil,
            countAttempts_cons_attempt, countAttempts_nil]
        · intro _
          show 1 ≤ countAttempts [ConnEvent.attempt i]
          rw [countAttempts_cons_attempt, countAttempts_nil]
        · intro j hj
          simp only [List.mem_singleton, ConnEvent.attempt.injEq] at hj
          subst hj
          exact ⟨le_refl _, hle⟩
        · intro _
          refine ⟨i, hok, ?_, fun l h1 h2 => absurd h1 (by omega)⟩
          show i + countAttempts [ConnEvent.attempt i] = i + 1
          rw [countAttempts_cons_attempt, countAttempts_nil]
        · intro hfalse
          simp at hfalse
        · intro _
          exact ⟨i, rfl⟩
      · by_cases hlast : i < maxA
        · rw [reconnectFrom_fail_cont hgt hok hlast]
          have hn' : maxA + 1 - (i + 1) ≤ n := by omega
          obtain ⟨ih1, ih2, ih3, ih4, ih5, ih6, ih7, ih8⟩ := ih (i + 1) hn'
          have hge1 : 1 ≤ countAttempts
              (reconnectFrom ok maxA delay (i + 1)).2 := ih4 (by omega)
          have hca : countAttempts
              (ConnEvent.attempt i :: .sleep delay ::
                (reconnectFrom ok maxA delay (i + 1)).2)
              = countAttempts (reconnectFrom ok maxA delay (i + 1)).2 + 1 := by
            rw [countAttempts_cons_attempt, countAttempts_cons_sleep]
          have hcs : countSleeps
              (ConnEvent.attempt i :: .sleep delay ::
                (reconnectFrom ok maxA delay (i + 1)).2)
              = countSleeps (reconnectFrom ok maxA delay (i + 1)).2 + 1 := by
            rw [countSleeps_cons_attempt, countSleeps_cons_sleep]
          refine ⟨?_, ?_, ?_, ?_, ?_, ?_, ?_, ?_⟩
          · show ((reconnectFrom ok maxA delay (i + 1)).1 = true ↔ _)
            rw [ih1]
            constructor
            · rintro ⟨j, h1, h2, h3⟩
              exact ⟨j, by omega, h2, h3⟩
            · rintro ⟨j, h1, h2, h3⟩
              refine ⟨j, ?_, h2, h3⟩
              rcases Nat.eq_or_lt_of_le h1 with rfl | h
              · exact absurd h3 hok
              · omega
          · show countAttempts (ConnEvent.attempt i :: .sleep delay ::
                (reconnectFrom ok maxA delay (i + 1)).2) ≤ maxA + 1 - i
            rw [hca]
            omega
          · show countSleeps (ConnEvent.attempt i :: .sleep delay ::
                (reconnectFrom ok maxA delay (i + 1)).2)
              = countAttempts (ConnEvent.attempt i :: .sleep delay ::
                (reconnectFrom ok maxA delay (i + 1)).2) - 1
            rw [hca, hcs, ih3]
            omega
          · intro _
            show 1 ≤ countAttempts (ConnEvent.attempt i :: .sleep delay ::
              (reconnectFrom ok maxA delay (i + 1)).2)
            rw [hca]
            omega
          · intro j hj
            simp only [List.mem_cons] at hj
            rcases hj with hj | hj | hj
            · cases hj
              exact ⟨le_refl _, hle⟩
            · cases hj
            · have := ih5 j hj
              omega
          · intro htrue
            have htrue' : (reconnectFrom ok maxA delay (i + 1)).1 = true := htrue
            obtain ⟨j, h1, h2, h3⟩ := ih6 htrue'
            refine ⟨j, h1, ?_, ?_⟩
            · show i + countAttempts (ConnEvent.attempt i :: .sleep delay ::
                  (reconnectFrom ok maxA delay (i + 1)).2) = j + 1
              rw [hca]
              omega
            · intro l hl1 hl2
              rcases Nat.eq_or_lt_of_le hl1 with rfl | h
              · exact Bool.eq_false_iff.mpr hok
              · exact h3 l (by omega) hl2
          · intro hfalse
            have hfalse' : (reconnectFrom ok maxA delay (i + 1)).1 = false :=
              hfalse
            show countAttempts (ConnEvent.attempt i :: .sleep delay ::
                (reconnectFrom ok maxA delay (i + 1)).2) = maxA + 1 - i
            rw [hca, ih7 hfalse']
            have hle2 : i + 1 ≤ maxA + 1 := Nat.succ_le_succ hle
            exact ((Nat.succ_sub hle2).symm).trans (Nat.succ_sub_succ (maxA + 1) i)
          · intro _
            have hne : (reconnectFrom ok maxA delay (i + 1)).2 ≠ [] := by
              intro hemp
              rw [hemp, countAttempts_nil] at hge1
              omega
            obtain ⟨j, hj⟩ := ih8 hne
            refine ⟨j, ?_⟩
            show (ConnEvent.attempt i :: ConnEvent.sleep delay ::
              (reconnectFrom ok maxA delay (i + 1)).2).getLast? = _
            rcases hcs2 : (reconnectFrom ok maxA delay (i + 1)).2
              with _ | ⟨q, qs⟩
            · exact absurd hcs2 hne
            · rw [hcs2] at hj
              rw [List.getLast?_cons_cons, List.getLast?_cons_cons]
              exact hj
        · rw [reconnectFrom_fail_last hgt hok hlast]
          refine ⟨?_, ?_, ?_, ?_, ?_, ?_, ?_, ?_⟩
          · show ((false : Bool) = true ↔ _)
            simp only [Bool.false_eq_true, false_iff]
            rintro ⟨j, h1, h2, h3⟩
            have hj : j = i := by omega
            subst hj
            exact hok h3
          · show countAttempts [ConnEvent.attempt i] ≤ maxA + 1 - i
            rw [countAttempts_cons_attempt, countAttempts_nil]
            omega
          · show countSleeps [ConnEvent.attempt i]
              = countAttempts [ConnEvent.attempt i] - 1
            rw [countSleeps_cons_attempt, countSleeps_nil,
              countAttempts_cons_attempt, countAttempts_nil]
          · intro _
            show 1 ≤ countAttempts [ConnEvent.attempt i]
            rw [countAttempts_cons_attempt, countAttempts_nil]
          · intro j hj
            simp only [List.mem_singleton, ConnEvent.attempt.injEq] at hj
            subst hj
            exact ⟨le_refl _, hle⟩
          · intro htrue
            simp at htrue
          · intro _
            show countAttempts [ConnEvent.attempt i] = maxA + 1 - i
            rw [countAttempts_cons_attempt, countAttempts_nil]
            omega
          · intro _
            exact ⟨i, rfl⟩

/-- C8: `ensure_connection` returns true immediately — no reconnect attempt,
no sleep — when the liveness probe succeeds; otherwise it runs the reconnect
loop, which makes at most `max_reconnect_attempts` `connect()` attempts,
sleeps the fixed delay exactly between consecutive attempts (one fewer sleep
than attempts, none after the last), returns true exactly when some attempt in
range succeeds — stopping at the first success — and returns false (a normal
return value, not a process exit) with all `maxA` attempts spent when every
attempt fails. -/
theorem ensure_connection_policy (connected accountOk : Bool) (ok : Nat → Bool)
    (maxA delay : Nat) :
    (is_connected connected accountOk = true →
      ensure_connection connected accountOk ok maxA delay = (true, [])) ∧
    (is_connected connected accountOk = false →
      ensure_connection connected accountOk ok maxA delay
        = reconnect ok maxA delay ∧
      countAttempts (reconnect ok maxA delay).2 ≤ maxA ∧
      ((reconnect ok maxA delay).1 = true ↔
        ∃ j, 1 ≤ j ∧ j ≤ maxA ∧ ok j = true) ∧
      countSleeps (reconnect ok maxA delay).2
        = countAttempts (reconnect ok maxA delay).2 - 1 ∧
      ((reconnect ok maxA delay).1 = true →
        ∃ j, ok j = true ∧
          1 + countAttempts (reconnect ok maxA delay).2 = j + 1 ∧
          ∀ l, 1 ≤ l → l < j → ok l = false) ∧
      ((reconnect ok maxA delay).1 = false →
        countAttempts (reconnect ok maxA delay).2 = maxA) ∧
      ((reconnect ok maxA delay).2 ≠ [] →
        ∃ j, (reconnect ok maxA delay).2.getLast?
          = some (.attempt j))) := by
  obtain ⟨h1, h2, h3, _, _, h6, h7, h8⟩ :=
    reconnectFrom_spec ok maxA delay (maxA + 1 - 1) 1 (le_refl _)
  constructor
  · intro hc
    rw [ensure_connection, if_pos hc]
  · intro hc
    refine ⟨?_, ?_, ?_, ?_, ?_, ?_, ?_⟩
    · rw [ensure_connection, if_neg (by simp [hc])]
    · rw [reconnect]
      exact le_trans h2 (by omega)
    · rw [reconnect]
      exact h1
    · rw [reconnect]
      exact h3
    · rw [reconnect]
      exact h6
    · rw [reconnect]
      intro hf
      have := h7 hf
      omega
    · rw [reconnect]
      exact h8

/-- Witness for C8: a healthy probe short-circuits; a failed probe hands over
to the reconnect loop. -/
theorem ensure_connection_policy_witness :
    ensure_connection true true (fun _ => false) 5 10 = (true, []) ∧
    ensure_connection false true (fun _ => false) 5 10
      = reconnect (fun _ => false) 5 10 :=
  ⟨(ensure_connection_policy true true (fun _ => false) 5 10).1 rfl,
   ((ensure_connection_policy false true (fun _ => false) 5 10).2 rfl).1⟩

/-! ## C9: symbol-resolution caching -/

lemma find?_pair_cons_pos {s : String} (q : String × Option String)
    (l : List (String × Option String)) (h : (q.1 == s) = true) :
    List.find? (fun p => p.1 == s) (q :: l) = some q :=
  List.find?_cons_of_pos l h

lemma find?_pair_cons_neg {s : String} (q : String × Option String)
    (l : List (String × Option String)) (h : ¬(q.1 == s) = true) :
    List.find? (fun p => p.1 == s) (q :: l)
      = List.find? (fun p => p.1 == s) l :=
  List.find?_cons_of_neg l h

lemma find_map_insert {s : String} {v : Option String} :
    ∀ cache : List (String × Option String),
      cache.any (fun p => p.1 == s) = true →
      ((cache.map fun p => if p.1 == s then (s, v) else p).find?
        fun p => p.1 == s) = some (s, v)
  | [], h => by simp at h
  | p :: cs, h => by
    rw [List.map_cons]
    by_cases hp : (p.1 == s) = true
    · rw [find?_pair_cons_pos (if p.1 == s then (s, v) else p)
          (cs.map fun p => if p.1 == s then (s, v) else p)
          (by rw [if_pos hp]; simp), if_pos hp]
    · have h' : cs.any (fun p => p.1 == s) = true := by
        simpa [List.any_cons, hp] using h
      rw [find?_pair_cons_neg (if p.1 == s then (s, v) else p)
          (cs.map fun p => if p.1 == s then (s, v) else p)
          (by rw [if_neg hp]; simp [hp])]
      exact find_map_insert cs h'

lemma find_append_single {s : String} {v : Option String} :
    ∀ cache : List (String × Option String),
      cache.any (fun p => p.1 == s) = false →
      ((cache ++ [(s, v)]).find? fun p => p.1 == s) = some (s, v)
  | [], _ => by
    rw [List.nil_append, find?_pair_cons_pos (s, v) [] (by simp)]
  | p :: cs, h => by
    have hp : (p.1 == s) = false := by
      by_contra hcon
      simp only [List.any_cons, Bool.or_eq_false_iff] at h
      exact hcon h.1
    have h' : cs.any (fun p => p.1 == s) = false := by
      simpa [List.any_cons, hp] using h
    rw [List.cons_append, find?_pair_cons_neg p (cs ++ [(s, v)]) (by simp [hp])]
    exact find_append_single cs h'

lemma cacheLookup_insert_self (cache : List (String × Option String))
    (s : String) (v : Option String) :
    cacheLookup (cacheInsert cache s v) s = some v := by
  unfold cacheLookup cacheInsert
  by_cases hany : cache.any (fun p => p.1 == s) = true
  · rw [if_pos hany, find_map_insert cache hany]
    rfl
  · rw [if_neg hany,
      find_append_single cache (Bool.eq_false_iff.mpr hany)]
    rfl

lemma find_map_other {s t : String} {v : Option String} (hne : t ≠ s) :
    ∀ cache : List (String × Option String),
      ((cache.map fun p => if p.1 == t then (t, v) else p).find?
          fun p => p.1 == s)
        = (cache.find? fun p => p.1 == s)
  | [] => rfl
  | p :: cs => by
    rw [List.map_cons]
    by_cases hp : (p.1 == t) = true
    · have hp1 : p.1 = t := by simpa using hp
      have hps : ¬((p.1 == s) = true) := by simp [hp1, hne]
      rw [find?_pair_cons_neg (if p.1 == t then (t, v) else p)
          (cs.map fun p => if p.1 == t then (t, v) else p)
          (by rw [if_pos hp]; simp [hne]),
        find?_pair_cons_neg p cs hps]
      exact find_map_other hne cs
    · rw [if_neg hp]
      by_cases hps : (p.1 == s) = true
      · rw [find?_pair_cons_pos p
            (cs.map fun p => if p.1 == t then (t, v) else p) hps,
          find?_pair_cons_pos p cs hps]
      · rw [find?_pair_cons_neg p
            (cs.map fun p => if p.1 == t then (t, v) else p) hps,
          find?_pair_cons_neg p cs hps]
        exact find_map_other hne cs

lemma find_append_other {s t : String} {v : Option String} (hne : t ≠ s) :
    ∀ cache : List (String × Option String),
      ((cache ++ [(t, v)]).find? fun p => p.1 == s)
        = (cache.find? fun p => p.1 == s)
  | [] => by
    rw [List.nil_append, find?_pair_cons_neg (t, v) [] (by simp [hne])]
  | p :: cs => by
    rw [List.cons_append]
    by_cases hps : (p.1 == s) = true
    · rw [find?_pair_cons_pos p (cs ++ [(t, v)]) hps,
        find?_pair_cons_pos p cs hps]
    · rw [find?_pair_cons_neg p (cs ++ [(t, v)]) hps,
        find?_pair_cons_neg p cs hps]
      exact find_append_other hne cs

lemma cacheLookup_insert_ne {s t : String} (hne : t ≠ s)
    (cache : List (String × Option String)) (v : Option String) :
    cacheLookup (cacheInsert cache t v) s = cacheLookup cache s := by
  unfold cacheLookup cacheInsert
  by_cases hany : cache.any (fun p => p.1 == t) = true
  · rw [if_pos hany, find_map_other hne cache]
  · rw [if_neg hany, find_append_other hne cache]

lemma resolve_hit (pr : Provider) (connOk : Bool) {rs : Resolver} {s : String}
    {v : Option String} (hs : s ≠ "") (h : cacheLookup rs.cache s = some v) :
    resolve_symbol pr connOk rs s = (v, rs, []) := by
  rw [resolve_symbol, if_neg hs, h]

lemma resolve_empty (pr : Provider) (connOk : Bool) (rs : Resolver) :
    resolve_symbol pr connOk rs "" = (none, rs, []) := by
  rw [resolve_symbol, if_pos rfl]

/-- A miss writes exactly one cache entry, at the requested key. -/
lemma resolve_miss_cache (pr : Provider) (connOk : Bool) {rs : Resolver}
    {t : String} (ht : t ≠ "") (hmiss : cacheLookup rs.cache t = none) :
    ∃ x, (resolve_symbol pr connOk rs t).2.1.cache = cacheInsert rs.cache t x := by
  rw [resolve_symbol, if_neg ht, hmiss]
  by_cases hc : connOk = true
  · subst hc
    by_cases hinfo : pr.hasInfo t = true
    · exact ⟨some t, by simp [hinfo]⟩
    · exact ⟨_, by rw [if_neg hinfo]; rfl⟩
  · have hc' : connOk = false := by
      cases connOk
      · rfl
      · exact absurd rfl hc
    subst hc'
    exact ⟨none, rfl⟩

/-- After a first resolution of a non-empty symbol, its result is cached. -/
lemma resolve_symbol_caches (pr : Provider) (connOk : Bool) (rs : Resolver)
    (s : String) (hs : s ≠ "") :
    cacheLookup ((resolve_symbol pr connOk rs s).2.1).cache s
      = some (resolve_symbol pr connOk rs s).1 := by
  rcases hl : cacheLookup rs.cache s with _ | v
  · rw [resolve_symbol, if_neg hs, hl]
    by_cases hc : connOk = true
    · subst hc
      by_cases hinfo : pr.hasInfo s = true
      · simp only [hinfo, Bool.not_true, Bool.false_eq_true, if_false, if_true]
        exact cacheLookup_insert_self rs.cache s (some s)
      · simp only [hinfo, Bool.not_true, Bool.false_eq_true, if_false]
        exact cacheLookup_insert_self rs.cache s _
    · have hc' : connOk = false := by
        cases connOk
        · rfl
        · exact absurd rfl hc
      subst hc'
      simp only [Bool.not_false, if_true]
      exact cacheLookup_insert_self rs.cache s none
  · rw [resolve_hit pr connOk hs hl]
    exact hl

/-- C9: symbol-resolution results, successful or failed, are cached for the
process lifetime.  After one `resolve_symbol(s)` call for a non-empty `s`,
every later call for `s` returns the same cached value, makes no provider
query (`symbol_info` / `symbols_get`), and leaves the state unchanged; and no
later call — for any symbol `t`, against any provider or connection state —
changes the cached entry for `s`. -/
theorem resolve_symbol_cache_stable (pr pr2 pr3 : Provider)
    (connOk connOk2 connOk3 : Bool) (rs : Resolver) (s t : String)
    (hs : s ≠ "") :
    (resolve_symbol pr2 connOk2 (resolve_symbol pr connOk rs s).2.1 s).1
      = (resolve_symbol pr connOk rs s).1 ∧
    (resolve_symbol pr2 connOk2 (resolve_symbol pr connOk rs s).2.1 s).2.1
      = (resolve_symbol pr connOk rs s).2.1 ∧
    (resolve_symbol pr2 connOk2 (resolve_symbol pr connOk rs s).2.1 s).2.2
      = [] ∧
    cacheLookup ((resolve_symbol pr3 connOk3
        (resolve_symbol pr connOk rs s).2.1 t).2.1).cache s
      = some (resolve_symbol pr connOk rs s).1 := by
  have h1 := resolve_symbol_caches pr connOk rs s hs
  have hhit := resolve_hit pr2 connOk2 hs h1
  refine ⟨by rw [hhit], by rw [hhit], by rw [hhit], ?_⟩
  by_cases ht : t = ""
  · subst ht
    rw [resolve_empty]
    exact h1
  · rcases hlt : cacheLookup (resolve_symbol pr connOk rs s).2.1.cache t
      with _ | w
    · have hts : t ≠ s := by
        intro he
        rw [he, h1] at hlt
        exact Option.noConfusion hlt
      obtain ⟨x, hx⟩ := resolve_miss_cache pr3 connOk3 ht hlt
      rw [hx, cacheLookup_insert_ne hts]
      exact h1
    · rw [resolve_hit pr3 connOk3 ht hlt]
      exact h1

/-- Witness for C9 at a concrete resolver state. -/
theorem resolve_symbol_cache_stable_witness :
    (resolve_symbol ⟨["US30.cash"], fun _ => false⟩ true
        (resolve_symbol ⟨["US30.cash"], fun _ => false⟩ true ⟨[]⟩ "US30").2.1
        "US30").1
      = (resolve_symbol ⟨["US30.cash"], fun _ => false⟩ true ⟨[]⟩ "US30").1 ∧
    (resolve_symbol ⟨["US30.cash"], fun _ => false⟩ true
        (resolve_symbol ⟨["US30.cash"], fun _ => false⟩ true ⟨[]⟩ "US30").2.1
        "US30").2.1
      = (resolve_symbol ⟨["US30.cash"], fun _ => false⟩ true ⟨[]⟩ "US30").2.1 ∧
    (resolve_symbol ⟨["US30.cash"], fun _ => false⟩ true
        (resolve_symbol ⟨["US30.cash"], fun _ => false⟩ true ⟨[]⟩ "US30").2.1
        "US30").2.2 = [] ∧
    cacheLookup ((resolve_symbol ⟨["US30.cash"], fun _ => false⟩ true
        (resolve_symbol ⟨["US30.cash"], fun _ => false⟩ true ⟨[]⟩ "US30").2.1
        "USTech").2.1).cache "US30"
      = some (resolve_symbol ⟨["US30.cash"], fun _ => false⟩ true ⟨[]⟩
          "US30").1 :=
  resolve_symbol_cache_stable ⟨["US30.cash"], fun _ => false⟩
    ⟨["US30.cash"], fun _ => false⟩ ⟨["US30.cash"], fun _ => false⟩
    true true true ⟨[]⟩ "US30" "USTech" (by decide)

/-! ## C6: gap repair -/

lemma fkPrep_ok_of_minutes (st : Store) (sc tc : List String) (ops : Nat)
    {c : Candle} (hm : ¬c.timeframeMinutes ≤ 0) :
    ∃ out, fkPrep st sc tc ops c = .ok out := by
  unfold fkPrep
  by_cases hFk : st.usesFk = true
  · rw [if_pos hFk]
    by_cases htc : c.timeframe ∈ tc
    · rw [if_pos htc]
      exact ⟨_, rfl⟩
    · rw [if_neg htc, if_neg hm]
      exact ⟨_, rfl⟩
  · rw [if_neg hFk]
    exact ⟨_, rfl⟩

lemma insertLoop_ok_of_minutes :
    ∀ (cs : List Candle) (st : Store) (sc tc : List String) (n ops : Nat),
      (∀ c ∈ cs, ¬c.timeframeMinutes ≤ 0) →
      ∃ r, insertLoop st sc tc n ops cs = .ok r
  | [], st, sc, tc, n, ops, _ => ⟨⟨n, st, ops⟩, rfl⟩
  | c :: rest, st, sc, tc, n, ops, h => by
    obtain ⟨⟨st', sc', tc', ops'⟩, hp⟩ :=
      fkPrep_ok_of_minutes st sc tc ops (h c (List.mem_cons_self c rest))
    rw [insertLoop_cons_ok n rest hp]
    by_cases hk : hasKey st'.rows (candleKey c) = true
    · rw [if_pos hk]
      exact insertLoop_ok_of_minutes rest st' sc' tc' n (ops' + 1)
        fun c0 hc0 => h c0 (List.mem_cons_of_mem c hc0)
    · rw [if_neg hk]
      exact insertLoop_ok_of_minutes rest _ sc' tc' (n + 1) (ops' + 1)
        fun c0 hc0 => h c0 (List.mem_cons_of_mem c hc0)

lemma convert_minutes {sym tf : String} {m : Int} :
    ∀ {rs : List Rate} {cs : List Candle},
      convert_rates_to_candles sym tf m rs = .ok cs →
      ∀ c ∈ cs, c.timeframeMinutes = m := by
  intro rs
  induction rs with
  | nil =>
    intro cs h c hc
    simp only [convert_rates_to_candles, Except.ok.injEq] at h
    subst h
    simp at hc
  | cons r rest ih =>
    intro cs h c hc
    rw [convert_rates_to_candles] at h
    rcases hcv : convertRate sym tf m r with e | c1
    · rw [hcv] at h
      exact absurd h (by simp)
    · rw [hcv] at h
      rcases hrest : convert_rates_to_candles sym tf m rest with e | cs'
      · rw [hrest] at h
        exact absurd h (by simp)
      · rw [hrest] at h
        simp only [Except.ok.injEq] at h
        subst h
        rcases List.mem_cons.mp hc with rfl | hc
        · unfold convertRate fromtimestampUTC at hcv
          by_cases hb : r.time < -62135596800 ∨ 253402300799 < r.time
          · rw [if_pos hb] at hcv
            exact absurd hcv (by simp)
          · rw [if_neg hb] at hcv
            simp only [Except.ok.injEq] at hcv
            rw [← hcv]
        · exact ih hrest c hc

lemma fetchLoop_minutes (o : SourceOracle) (sym tf : String) (cm endT : Int) :
    ∀ (n : Nat) (cursor delta : Int) (hδ : 0 < delta) (cs : List Candle)
      (evs : List FetchEvent),
      (endT - cursor).toNat + delta.toNat ≤ n →
      fetchLoop o sym tf cm endT cursor delta hδ = .ok (cs, evs) →
      ∀ c ∈ cs, c.timeframeMinutes = cm := by
  intro n
  induction n with
  | zero =>
    intro cursor delta hδ cs evs hn h
    exfalso
    omega
  | succ n ih =>
    intro cursor delta hδ cs evs hn h
    by_cases hlt : cursor < endT
    · rcases hr : (o cursor (min endT (cursor + delta))).rates with _ | rs
      · by_cases hcond : ((o cursor (min endT (cursor + delta))).invalidParams
            && decide (oneDay < delta)) = true
        · have hinv := (Bool.and_eq_true_iff.mp hcond).1
          have hday : oneDay < delta :=
            of_decide_eq_true (Bool.and_eq_true_iff.mp hcond).2
          rw [fetchLoop_shrink hlt (Or.inl hr) hinv hday] at h
          refine ih cursor (max oneDay (delta / 2)) _ cs evs ?_ h
          have h2 : max oneDay (delta / 2) < delta := by
            have h3 : delta / 2 < delta := by omega
            omega
          omega
        · rw [fetchLoop_skip hlt (Or.inl hr) (Bool.eq_false_iff.mpr hcond)] at h
          rcases hrec : fetchLoop o sym tf cm endT (min endT (cursor + delta))
              delta hδ with e | ⟨cs', evs'⟩
          · rw [hrec] at h
            exact absurd h (by simp)
          · rw [hrec] at h
            simp only [Except.ok.injEq, Prod.mk.injEq] at h
            obtain ⟨hcs, _⟩ := h
            subst hcs
            refine ih (min endT (cursor + delta)) delta hδ cs' evs' ?_ hrec
            have hclt : cursor < min endT (cursor + delta) :=
              lt_min hlt (by omega)
            have := min_le_left endT (cursor + delta)
            omega
      · by_cases hemp : rs = []
        · subst hemp
          by_cases hcond : ((o cursor (min endT (cursor + delta))).invalidParams
              && decide (oneDay < delta)) = true
          · have hinv := (Bool.and_eq_true_iff.mp hcond).1
            have hday : oneDay < delta :=
              of_decide_eq_true (Bool.and_eq_true_iff.mp hcond).2
            rw [fetchLoop_shrink hlt (Or.inr hr) hinv hday] at h
            refine ih cursor (max oneDay (delta / 2)) _ cs evs ?_ h
            have h2 : max oneDay (delta / 2) < delta := by
              have h3 : delta / 2 < delta := by omega
              omega
            omega
          · rw [fetchLoop_skip hlt (Or.inr hr)
                (Bool.eq_false_iff.mpr hcond)] at h
            rcases hrec : fetchLoop o sym tf cm endT (min endT (cursor + delta))
                delta hδ with e | ⟨cs', evs'⟩
            · rw [hrec] at h
              exact absurd h (by simp)
            · rw [hrec] at h
              simp only [Except.ok.injEq, Prod.mk.injEq] at h
              obtain ⟨hcs, _⟩ := h
              subst hcs
              refine ih (min endT (cursor + delta)) delta hδ cs' evs' ?_ hrec
              have hclt : cursor < min endT (cursor + delta) :=
                lt_min hlt (by omega)
              have := min_le_left endT (cursor + delta)
              omega
        · rw [fetchLoop_data hlt hr hemp] at h
          rcases hconv : convert_rates_to_candles sym tf cm rs with e | csc
          · rw [hconv] at h
            exact absurd h (by simp)
          · rw [hconv] at h
            rcases hrec : fetchLoop o sym tf cm endT (min endT (cursor + delta))
                delta hδ with e | ⟨cs', evs'⟩
            · rw [hrec] at h
              exact absurd h (by simp)
            · rw [hrec] at h
              simp only [Except.ok.injEq, Prod.mk.injEq] at h
              obtain ⟨hcs, _⟩ := h
              subst hcs
              intro c hc
              rcases List.mem_append.mp hc with hc | hc
              · exact convert_minutes hconv c hc
              · refine ih (min endT (cursor + delta)) delta hδ cs' evs' ?_
                  hrec c hc
                have hclt : cursor < min endT (cursor + delta) :=
                  lt_min hlt (by omega)
                have := min_le_left endT (cursor + delta)
                omega
    · rw [fetchLoop_stop hlt] at h
      simp only [Except.ok.injEq, Prod.mk.injEq] at h
      obtain ⟨hcs, _⟩ := h
      subst hcs
      intro c hc
      simp at hc

lemma tfMinutesOr0_pos {tf : String}
    (h : (timeframeMinutesOf tf).isNone = false) : 0 < tfMinutesOr0 tf := by
  unfold tfMinutesOr0
  unfold timeframeMinutesOf at h ⊢
  split_ifs at h ⊢ <;> norm_num at h ⊢

lemma fetch_nonempty_tf {connOk symbolOk : Bool} {o : SourceOracle}
    {sym tf : String} {a b : Int}
    (h : fetch_historical_data connOk symbolOk o sym tf a b ≠ []) :
    (timeframeMinutesOf tf).isNone = false := by
  by_contra hcon
  have hT : (timeframeMinutesOf tf).isNone = true := by
    cases hx : (timeframeMinutesOf tf).isNone
    · exact absurd hx hcon
    · rfl
  apply h
  unfold fetch_historical_data
  by_cases h1 : (!connOk) = true
  · rw [if_pos h1]
  · rw [if_neg h1]
    by_cases h2 : (!symbolOk) = true
    · rw [if_pos h2]
    · rw [if_neg h2, if_pos hT]

lemma fetch_minutes {connOk symbolOk : Bool} {o : SourceOracle}
    {sym tf : String} {a b : Int} :
    ∀ c ∈ fetch_historical_data connOk symbolOk o sym tf a b,
      c.timeframeMinutes = tfMinutesOr0 tf := by
  intro c hc
  unfold fetch_historical_data at hc
  by_cases h1 : (!connOk) = true
  · rw [if_pos h1] at hc
    simp at hc
  · rw [if_neg h1] at hc
    by_cases h2 : (!symbolOk) = true
    · rw [if_pos h2] at hc
      simp at hc
    · rw [if_neg h2] at hc
      by_cases h3 : (timeframeMinutesOf tf).isNone = true
      · rw [if_pos h3] at hc
        simp at hc
      · rw [if_neg h3] at hc
        rcases hloop : fetchLoop o sym tf (tfMinutesOr0 tf) b a
            (initialChunkDelta tf) (initialChunkDelta_pos tf)
            with e | ⟨cs, evs⟩
        · rw [hloop] at hc
          simp at hc
        · rw [hloop] at hc
          simp only [] at hc
          exact fetchLoop_minutes o sym tf (tfMinutesOr0 tf) b
            ((b - a).toNat + (initialChunkDelta tf).toNat) a
            (initialChunkDelta tf) (initialChunkDelta_pos tf) cs evs
            (le_refl _) hloop c hc

lemma insert_conn_ok (st : Store) {cs : List Candle}
    (hmin : ∀ c ∈ cs, ¬c.timeframeMinutes ≤ 0) :
    ∃ r, insert_candles_conn true st cs = .ok r := by
  unfold insert_candles_conn
  by_cases hcs : cs = []
  · rw [if_pos hcs]
    exact ⟨_, rfl⟩
  · rw [if_neg hcs]
    simp only [Bool.not_true, Bool.false_eq_true, if_false]
    exact insertLoop_ok_of_minutes cs st [] [] 0 0 hmin

/-- With a healthy store connection, every detected gap is processed: each
gap's exact sub-range is fetched (empty fetch results are tolerated and do not
abort the remaining gaps) and the processed-gap trace equals the input gap
list. -/
lemma fillGaps_ok (connOk symbolOk : Bool) (o : SourceOracle)
    (conn : Nat → Bool) (sym tf : String) (hconn : ∀ i, conn i = true) :
    ∀ (gaps : List (Int × Int)) (st : Store) (i : Nat),
      ∃ st', fillGaps connOk symbolOk o conn sym tf st i gaps
        = .ok (st', gaps)
  | [], st, i => ⟨st, rfl⟩
  | (gs, ge) :: rest, st, i => by
    rw [fillGaps]
    by_cases hcs : fetch_historical_data connOk symbolOk o sym tf gs ge = []
    · rw [if_pos hcs]
      obtain ⟨st', hst'⟩ := fillGaps_ok connOk symbolOk o conn sym tf hconn
        rest st (i + 1)
      rw [hst']
      exact ⟨st', rfl⟩
    · rw [if_neg hcs]
      have hmin : ∀ c ∈ fetch_historical_data connOk symbolOk o sym tf gs ge,
          ¬c.timeframeMinutes ≤ 0 := by
        intro c hc
        have h1 := fetch_minutes c hc
        have h2 := tfMinutesOr0_pos (fetch_nonempty_tf hcs)
        omega
      obtain ⟨r, hr⟩ := insert_conn_ok st hmin
      rw [hconn i]
      simp only [hr]
      obtain ⟨st', hst'⟩ := fillGaps_ok connOk symbolOk o conn sym tf hconn
        rest r.store (i + 1)
      rw [hst']
      exact ⟨st', rfl⟩

/-- C6 amended: gap repair over the window starting 30 days before the
high-water mark processes every detected gap when the storage driver stays
healthy — re-fetching exactly each gap's sub-range, with fetch failures (empty
results) tolerated per gap — but the theorem requires the healthy-driver
hypothesis because an exception raised by `insert_candles` propagates out of
the unguarded per-gap loop and aborts the remaining gaps (see the
counterexample). -/
theorem gap_repair_healthy (connOk symbolOk : Bool) (o : SourceOracle)
    (conn : Nat → Bool) (st : Store) (sym tf : String) (m now H : Int)
    (hconn : ∀ i, conn i = true)
    (hlast : get_last_candle_timestamp st sym tf = some H) :
    ∃ st', detect_and_fill_gaps connOk symbolOk o conn st sym tf m now
      = .ok (st', detect_gaps st sym tf (H - 30 * oneDay) now m) := by
  rw [detect_and_fill_gaps, hlast]
  exact fillGaps_ok connOk symbolOk o conn sym tf hconn
    (detect_gaps st sym tf (H - 30 * oneDay) now m) st 0

/-- Witness for the amended C6 at a concrete store and the always-failing
terminal (all gap fetches come back empty; every gap is still processed). -/
theorem gap_repair_healthy_witness :
    ∃ st', detect_and_fill_gaps true true wOracle (fun _ => true) cStore
        "S" "M5" 5 2001
      = .ok (st', detect_gaps cStore "S" "M5" (2000 - 30 * oneDay) 2001 5) :=
  gap_repair_healthy true true wOracle (fun _ => true) cStore "S" "M5" 5 2001
    2000 (fun _ => rfl) (by decide)

/-- Counterexample to C6 as stated: the store has two detected gaps, the
terminal answers the first gap's sub-range, and the storage driver raises
while inserting the first gap's candles; the raised storage error aborts the
whole repair invocation — the second gap is never processed. -/
theorem gap_repair_abort_counterexample :
    detect_and_fill_gaps true true cOrcl (fun _ => false) cStore "S" "M5" 5
        2001
      = .error "Failed to insert candles: MySQLError" ∧
    detect_gaps cStore "S" "M5" (2000 - 30 * oneDay) 2001 5
      = [(0, 1000), (1000, 2000)] := by
  have hgaps : detect_gaps cStore "S" "M5" (2000 - 30 * oneDay) 2001 5
      = [(0, 1000), (1000, 2000)] := by decide
  refine ⟨?_, hgaps⟩
  have hlast : get_last_candle_timestamp cStore "S" "M5" = some 2000 := by
    decide
  have hmin : min (1000 : Int) (0 + initialChunkDelta "M5") = 1000 := by decide
  have hrs : (cOrcl 0 (min 1000 (0 + initialChunkDelta "M5"))).rates
      = some [⟨500, 1, 1, 1, 1, 1⟩] := by decide
  have hloop : fetchLoop cOrcl "S" "M5" (tfMinutesOr0 "M5") 1000 0
      (initialChunkDelta "M5") (initialChunkDelta_pos "M5")
      = .ok ([⟨"S", "M5", 5, 500, 1, 1, 1, 1, 1⟩], [.fetched 0 1000 1]) := by
    rw [fetchLoop_data (by norm_num) hrs (by decide), hmin,
      fetchLoop_stop (lt_irrefl 1000)]
    rfl
  have hfetch : fetch_historical_data true true cOrcl "S" "M5" 0 1000
      = [⟨"S", "M5", 5, 500, 1, 1, 1, 1, 1⟩] := by
    unfold fetch_historical_data
    rw [hloop]
    rfl
  rw [detect_and_fill_gaps]
  simp only [hlast, hgaps]
  rw [fillGaps]
  simp only [hfetch]
  rfl


end MT5
